import Mathlib

/-!
Verification of the relational graph-loading engine of the ACED submission
pipeline (`aced_submission/meta_graph_load.py`): vertex/edge bulk loading with
upsert-on-conflict semantics, relation deduplication, project bootstrapping
(`ensure_project`) and the `meta_upload` orchestrator.  The Python source is
shallowly embedded: JSON objects become an inductive `Json` type, database
tables become association lists keyed by `node_id` (vertices) or
`(src_id, dst_id)` (edges), and the per-chunk COPY-into-temp-table /
`INSERT .. ON CONFLICT` statements become folds of key-wise upserts.
-/

namespace MetaGraphLoad

/-- JSON values as produced by `json.loads` on an ndjson line.  Objects keep
their key order (Python dicts preserve insertion order); numbers are modelled
as integers (the claims under study never depend on float formatting). -/
inductive Json where
  | null : Json
  | bool (b : Bool) : Json
  | num (n : Int) : Json
  | str (s : String) : Json
  | arr (xs : List Json) : Json
  | obj (kvs : List (String × Json)) : Json

/-- Properties of a vertex row: the parsed `_props` JSON object, a key/value
list in insertion order. -/
abbrev Props := List (String × Json)

section Assoc

variable {K : Type} {V : Type} [DecidableEq K]

/-- Look up the value stored at key `k` in an association list (first match,
as a SQL primary-key lookup on a table whose keys are unique). -/
def lookupA (t : List (K × V)) (k : K) : Option V :=
  (t.find? (fun kv => kv.1 = k)).map (fun kv => kv.2)

/-- Key-wise upsert: the effect of `INSERT .. ON CONFLICT (key) DO UPDATE` for
one staged row.  An existing row with the same key is overwritten in place;
otherwise the row is appended. -/
def upsertA (t : List (K × V)) (k : K) (v : V) : List (K × V) :=
  if t.any (fun kv => kv.1 = k) then
    t.map (fun kv => if kv.1 = k then (k, v) else kv)
  else
    t ++ [(k, v)]

/-- The effect of `INSERT .. ON CONFLICT DO NOTHING` for one row: an existing
row with the same key is left untouched; otherwise the row is appended. -/
def insertIfAbsentA (t : List (K × V)) (k : K) (v : V) : List (K × V) :=
  if t.any (fun kv => kv.1 = k) then t else t ++ [(k, v)]

/-- Apply staged `(table, key, value)` rows in order as key-wise upserts into
a family of tables.  `INSERT .. SELECT .. FROM tmp ON CONFLICT DO UPDATE`
applies the staged rows of one chunk's buffer to its table; each buffer's
rows target a single table and keep encounter order, so threading the
upserts row-by-row in encounter order yields the same table contents. -/
def applyRows (tabs : String → List (K × V)) (rows : List (String × K × V)) :
    String → List (K × V) :=
  rows.foldl
    (fun acc r => fun n => if n = r.1 then upsertA (acc n) r.2.1 r.2.2 else acc n)
    tabs

/-- The last staged row targeting table `n` with key `k`, if any: the row
whose value a sequence of upserts leaves in place. -/
def lastRowFor (rows : List (String × K × V)) (n : String) (k : K) : Option V :=
  (rows.reverse.find? (fun r => r.1 = n ∧ r.2.1 = k)).map (fun r => r.2.2)

end Assoc

/-- One relation of a vertex record (an element of its `relations` list). -/
structure Relation where
  dst_id : String
  dst_name : String
  label : String
deriving DecidableEq, Repr

/-- One vertex record, i.e. one parsed ndjson line:
`{"id": .., "name": .., "object": {..}, "relations": [..]}`. -/
structure VertexRecord where
  id : String
  name : String
  object : Props
  relations : List Relation

/-- An input ndjson file: its path and its parsed records, one per line. -/
structure NdFile where
  path : String
  records : List VertexRecord

/-- One entry of the dictionary-derived schema mapping (`_table_mappings`). -/
structure MapEntry where
  srcclass : String
  dstclass : String
  srctable : String
  dsttable : String
  tablename : String
  label : String
deriving DecidableEq, Repr

/-- Python `str.endswith`: the candidate suffix is a suffix of the string. -/
def pathEndsWith (s suffix : String) : Bool :=
  suffix.data.isSuffixOf s.data

/-- File selection used by both loaders:
`next(iter([fn for fn in files if str(fn).endswith(f"{entity_name}.ndjson")]), None)` —
the first file whose path ends with `<entity>.ndjson`. -/
def selectFile (files : List NdFile) (entity : String) : Option NdFile :=
  (files.filter (fun f => pathEndsWith f.path (entity ++ ".ndjson"))).head?

/-- Python `str.lower`, as used by the case-insensitive vertex-table match. -/
def strLower (s : String) : String :=
  String.mk (s.data.map Char.toLower)

/-- Split a character list on a separator character (the pieces between
separators, in order). -/
def splitOnChar (sep : Char) : List Char → List (List Char)
  | [] => [[]]
  | c :: rest =>
    if c = sep then [] :: splitOnChar sep rest
    else
      match splitOnChar sep rest with
      | [] => [[c]]
      | f :: fs => (c :: f) :: fs

/-- Upper-case the first character of a segment (Python `.upper()` on the
matched character). -/
def capitalizeChars : List Char → List Char
  | [] => []
  | c :: cs => c.toUpper :: cs

/-- `inflection.camelize`: underscore-separated segments are concatenated with
each segment's first letter upper-cased (`research_study ↦ ResearchStudy`,
`Project ↦ Project`). -/
def camelize (s : String) : String :=
  String.mk (((splitOnChar '_' s.data).map capitalizeChars).foldl (fun a b => a ++ b) [])

/-- Python dict assignment `d[k] = v`: an existing key keeps its position and
gets the new value; a new key is appended at the end — exactly the key-wise
upsert on an association list. -/
def setKey (l : Props) (k : String) (v : Json) : Props :=
  upsertA l k v

/-- Relation deduplication `dict((v['dst_id'], v) for v in relations).values()`:
keys keep their first-occurrence position, values are overwritten so the last
occurrence for each `dst_id` wins. -/
def dictDedup (rels : List Relation) : List Relation :=
  rels.foldl
    (fun acc v =>
      if acc.any (fun w => w.dst_id = v.dst_id) then
        acc.map (fun w => if w.dst_id = v.dst_id then v else w)
      else
        acc ++ [v])
    []

/-- Chunking worker, structurally recursive on a fuel bound so that it
evaluates by kernel reduction; any fuel at least the list length yields the
fixed-size chunks (each step consumes at least one element when `n ≠ 0`). -/
def chunkListAux : Nat → Nat → List α → List (List α)
  | _, _, [] => []
  | 0, _, _ :: _ => []
  | fuel + 1, n, x :: xs =>
    if n = 0 then [] else (x :: xs).take n :: chunkListAux fuel n ((x :: xs).drop n)

/-- Iteration in fixed-size chunks, modelling `chunk(f.readlines(), n)`. -/
def chunkList (n : Nat) (xs : List α) : List (List α) :=
  chunkListAux xs.length n xs

/-- One stored vertex row (besides the `node_id` key): the `_props` JSON
object and the `created` timestamp.  `acl`/`_sysan` are the constant `{}` in
every staged row and are omitted.  Timestamps are abstracted to one `Nat` per
load run (the source stamps `datetime.now()` per line; the claims only compare
row counts and property values). -/
structure VRow where
  props : Props
  created : Nat

/-- A vertex table: association list keyed by `node_id`. -/
abbrev VTable := List (String × VRow)

/-- An edge table: association list keyed by `(src_id, dst_id)`; the payload
columns `acl`, `_sysan`, `_props` are the constant `{}` in every staged row,
so only the `created` timestamp remains. -/
abbrev ETable := List ((String × String) × Nat)

/-- The relational store: physical vertex and edge tables by table name. -/
structure DB where
  vtables : String → VTable
  etables : String → ETable

/-- Replace one vertex table of the store. -/
def DB.setV (db : DB) (tn : String) (t : VTable) : DB :=
  { db with vtables := fun n => if n = tn then t else db.vtables n }

/-- Replace one edge table of the store. -/
def DB.setE (db : DB) (tn : String) (t : ETable) : DB :=
  { db with etables := fun n => if n = tn then t else db.etables n }

/-- Vertex-table resolution in `load_vertices` / `empty_project`:
`set([m['dsttable'] for ...] + [m['srctable'] for ...])` then
`next(iter(..), None)`.  The source draws an arbitrary element of a Python
set; we model that choice as the first candidate in mapping order (for gen3
dictionaries all candidates for one class coincide, so the set is a
singleton). -/
def vertexTableName (mapping : List MapEntry) (entity : String) : Option String :=
  ((mapping.filter (fun m => strLower m.dstclass = strLower entity)).map (fun m => m.dsttable) ++
    (mapping.filter (fun m => strLower m.srcclass = strLower entity)).map (fun m => m.srctable)).head?

/-- The staged vertex rows of one load pass, in write order: for each entity
of the dependency order, the first file ending in `<entity>.ndjson` (skip with
a warning when absent), the resolved vertex table (skip when unmapped), then
every record of the file as `(table, node_id, props-with-project_id)`.  The
file is consumed in chunks of 1000 lines, each chunk staged through a
temporary table and merged with `ON CONFLICT (node_id) DO UPDATE`. -/
def vertexPlan (files : List NdFile) (dependencyOrder : List String)
    (projectId : String) (mapping : List MapEntry) : List (String × String × Props) :=
  dependencyOrder.flatMap (fun entity =>
    match selectFile files entity with
    | none => []
    | some f =>
      match vertexTableName mapping entity with
      | none => []
      | some tn =>
        (chunkList 1000 f.records).flatMap (fun ch =>
          ch.map (fun rec => (tn, rec.id, setKey rec.object "project_id" (Json.str projectId)))))

/-- `load_vertices(files, connection, dependency_order, project_id, mapping)`:
bulk-upsert every staged row, stamping this run's `created` timestamp. -/
def loadVertices (files : List NdFile) (dependencyOrder : List String)
    (projectId : String) (mapping : List MapEntry) (ts : Nat) (db : DB) : DB :=
  { db with
    vtables := applyRows db.vtables
      ((vertexPlan files dependencyOrder projectId mapping).map
        (fun p => (p.1, p.2.1, (⟨p.2.2, ts⟩ : VRow)))) }

/-- The warning/print message `f"No mapping for src {entity_name} dst {relation['dst_name']}"`. -/
def noMappingMsg (entity dstName : String) : String :=
  "No mapping for src " ++ entity ++ " dst " ++ dstName

/-- The print message `f"No relations for {d_['name']}"`. -/
def noRelationsMsg (name : String) : String :=
  "No relations for " ++ name

/-- The warning `f"No file found for {entity_name} skipping"`. -/
def noFileMsg (entity : String) : String :=
  "No file found for " ++ entity ++ " skipping"

/-- One processing step of `load_edges`, in source order: an edge row staged
for a table, a `logger.warning` gated by `LOGGED_ALREADY`, a `print` gated by
`LOGGED_ALREADY`, or an ungated `logger.warning`. -/
inductive Act where
  | row (tn : String) (src dst : String) : Act
  | warnOnce (msg : String) : Act
  | printOnce (msg : String) : Act
  | warnAlways (msg : String) : Act
deriving DecidableEq, Repr

/-- The effective relation list of one record in `load_edges`: deduplicate by
`dst_id`, then, when the record's `name` is `ResearchStudy` or
`research_study`, append the synthetic relation to the bootstrapped project
node. -/
def effectiveRelations (projectNodeId : String) (rec : VertexRecord) : List Relation :=
  let rels := dictDedup rec.relations
  if rec.name = "ResearchStudy" ∨ rec.name = "research_study" then
    rels ++ [⟨projectNodeId, "Project", "project"⟩]
  else
    rels

/-- Processing of one relation in `load_edges`: resolve the edge table by
`(srcclass = entity, dstclass = camelize(dst_name))` (first mapping entry);
on a hit stage one `src|dst` row, otherwise warn once when the destination is
a known entity of the dependency order and print once when it is not. -/
def relActions (dependencyOrder : List String) (mapping : List MapEntry)
    (entity : String) (srcId : String) (r : Relation) : List Act :=
  match mapping.find? (fun m => m.srcclass = entity ∧ m.dstclass = camelize r.dst_name) with
  | some m => [Act.row m.tablename srcId r.dst_id]
  | none =>
    if r.dst_name ∈ dependencyOrder then
      [Act.warnOnce (noMappingMsg entity r.dst_name)]
    else
      [Act.printOnce (noMappingMsg entity r.dst_name)]

/-- Processing of one record in `load_edges`: dedup/augment its relations;
when none remain, print `No relations for ..` once and skip the record,
otherwise process every relation. -/
def recordActions (dependencyOrder : List String) (mapping : List MapEntry)
    (projectNodeId : String) (entity : String) (rec : VertexRecord) : List Act :=
  let rels := effectiveRelations projectNodeId rec
  if rels = [] then
    [Act.printOnce (noRelationsMsg rec.name)]
  else
    rels.flatMap (relActions dependencyOrder mapping entity rec.id)

/-- Processing of one entity of the dependency order in `load_edges`: select
its file by the `<entity>.ndjson` suffix (warn and skip when absent), then
process its records in chunks of 100 lines.  Each chunk groups its staged
rows into one buffer per edge table and merges each buffer with
`ON CONFLICT (src_id, dst_id) DO UPDATE`; buffers of distinct tables are
independent and each buffer keeps encounter order, so the row actions are
kept in per-record order. -/
def entityActions (files : List NdFile) (dependencyOrder : List String)
    (mapping : List MapEntry) (projectNodeId : String) (entity : String) : List Act :=
  match selectFile files entity with
  | none => [Act.warnAlways (noFileMsg entity)]
  | some f =>
    (chunkList 100 f.records).flatMap (fun ch =>
      ch.flatMap (recordActions dependencyOrder mapping projectNodeId entity))

/-- The full action trace of `load_edges`, entity by entity. -/
def loadEdgesActs (files : List NdFile) (dependencyOrder : List String)
    (mapping : List MapEntry) (projectNodeId : String) : List Act :=
  dependencyOrder.flatMap (entityActions files dependencyOrder mapping projectNodeId)

/-- Load-time mutable state: the store, the module-global `LOGGED_ALREADY`
list, and the trace of messages actually emitted through `logger.warning`. -/
structure LoadState where
  db : DB
  logged : List String
  warns : List String

/-- Interpret one action: stage-and-merge an edge row, or emit a
gated/ungated message.  A gated message is emitted and recorded in
`LOGGED_ALREADY` only when it has not been recorded before. -/
def applyAct (ts : Nat) (st : LoadState) : Act → LoadState
  | Act.row tn src dst =>
    { st with db := st.db.setE tn (upsertA (st.db.etables tn) (src, dst) ts) }
  | Act.warnOnce msg =>
    if msg ∈ st.logged then st
    else { st with logged := st.logged ++ [msg], warns := st.warns ++ [msg] }
  | Act.printOnce msg =>
    if msg ∈ st.logged then st
    else { st with logged := st.logged ++ [msg] }
  | Act.warnAlways msg => { st with warns := st.warns ++ [msg] }

/-- Interpret an action trace in order. -/
def applyActs (ts : Nat) (st : LoadState) (acts : List Act) : LoadState :=
  acts.foldl (applyAct ts) st

/-- `load_edges(files, connection, dependency_order, mapping, project_node_id)`. -/
def loadEdges (files : List NdFile) (dependencyOrder : List String)
    (mapping : List MapEntry) (projectNodeId : String) (ts : Nat)
    (st : LoadState) : LoadState :=
  applyActs ts st (loadEdgesActs files dependencyOrder mapping projectNodeId)

/-- Fixed namespace seed for program ids (sheepdog globals). -/
def PROGRAM_SEED : String := "85b08c6a-56a6-4474-9c30-b65abfd214a8"

/-- Fixed namespace seed for project ids (sheepdog globals). -/
def PROJECT_SEED : String := "249b4405-2c69-45d9-96bc-7410333d5d80"

/-- Model of Python `uuid.uuid5(namespace, name)`: a deterministic stable
hash of the namespace seed and the name.  The concrete SHA-1 digest is
irrelevant to the claims, which use only that the id is a function of the
fixed seed and the name; the model keeps the pair recoverable. -/
def uuid5 (seed name : String) : String :=
  "uuid5(" ++ seed ++ "," ++ name ++ ")"

/-- Python `p['_props']['name'] == program` for a JSON props object. -/
def propsNameIs (props : Props) (x : String) : Bool :=
  match lookupA props "name" with
  | some (Json.str s) => s = x
  | _ => false

/-- Python `p['_props']['code'] == project` (and the SQL `_props->>'code'`
comparison) for a JSON props object. -/
def propsCodeIs (props : Props) (x : String) : Bool :=
  match lookupA props "code" with
  | some (Json.str s) => s = x
  | _ => false

/-- The `_props` stored for a newly created program row. -/
def programProps (program : String) : Props :=
  [("name", Json.str program), ("type", Json.str "program"),
   ("dbgap_accession_number", Json.str program)]

/-- The `_props` stored for a newly created project row. -/
def projectProps (project : String) : Props :=
  [("code", Json.str project), ("type", Json.str "project"),
   ("state", Json.str "open"), ("dbgap_accession_number", Json.str project)]

/-- Result of `ensure_project`: the store after the call, the Python return
value (the function body has no `return` statement, so it always returns
`None`), and the program/project node ids resolved internally. -/
structure EPOut where
  db : DB
  ret : Option String
  resolvedProgram : String
  resolvedProject : String

/-- The program lookup of `ensure_project`: the first `node_program` row
whose `_props['name']` equals the program name. -/
def progLookup (db : DB) (program : String) : Option (String × VRow) :=
  (db.vtables "node_program").find? (fun kv => propsNameIs kv.2.props program)

/-- The program half of `ensure_project`: resolve the program row by name,
inserting a `uuid5(PROGRAM_SEED, program)` row with
`ON CONFLICT DO NOTHING` when absent; yields the store and the resolved
program node id. -/
def programPhase (db : DB) (program : String) (ts : Nat) : DB × String :=
  match progLookup db program with
  | some kv => (db, kv.1)
  | none =>
    (db.setV "node_program"
      (insertIfAbsentA (db.vtables "node_program") (uuid5 PROGRAM_SEED program)
        ⟨programProps program, ts⟩),
     uuid5 PROGRAM_SEED program)

/-- The scalar SQL subquery
`(select node_id from node_program where _props->>'name' = ..)`, modelled as
the first row with that name. -/
def subqueryProgId (db : DB) (program : String) : Option String :=
  (progLookup db program).map (fun kv => kv.1)

/-- The `src_id`s of membership edges pointing at the subquery's program id. -/
def memberSrcs (db : DB) (program : String) : List String :=
  ((db.etables "edge_projectmemberofprogram").filter
    (fun kv => some kv.1.2 = subqueryProgId db program)).map (fun kv => kv.1.1)

/-- The project lookup of `ensure_project`: the first `node_project` row that
is a member of the program (via the membership edge) and has the given code. -/
def projQuery (db : DB) (program project : String) : Option String :=
  ((db.vtables "node_project").find?
    (fun kv => (memberSrcs db program).contains kv.1 && propsCodeIs kv.2.props project)).map
    (fun kv => kv.1)

/-- `ensure_project(program, project)`: resolve/insert the program row, then
look up the project row scoped to that program through the membership edge
and by code; when absent, insert a `uuid5(PROJECT_SEED, project)` project row
plus the membership edge (all inserts `ON CONFLICT DO NOTHING`). -/
def ensureProject (db : DB) (program project : String) (ts : Nat) : EPOut :=
  let phase := programPhase db program ts
  match projQuery phase.1 program project with
  | some pid => ⟨phase.1, none, phase.2, pid⟩
  | none =>
    let projectNodeId := uuid5 PROJECT_SEED project
    let db2 := phase.1.setV "node_project"
      (insertIfAbsentA (phase.1.vtables "node_project") projectNodeId
        ⟨projectProps project, ts⟩)
    let db3 := db2.setE "edge_projectmemberofprogram"
      (insertIfAbsentA (db2.etables "edge_projectmemberofprogram")
        (projectNodeId, phase.2) ts)
    ⟨db3, none, phase.2, projectNodeId⟩

/-- The inputs of `meta_upload` that live outside the store: the filesystem
facts checked by the preconditions, the parsed config, the globbed files and
the dictionary-derived mapping. -/
structure Env where
  sourcePath : String
  sourceIsDir : Bool
  configPath : String
  configIsFile : Bool
  dictionaryPath : String
  rawDependencyOrder : List String
  files : List NdFile
  mapping : List MapEntry

/-- Dependency-order filtering: drop names starting with `_`, then drop
`Program` and `Project`. -/
def depOrderOf (raw : List String) : List String :=
  (raw.filter (fun c => !(c.startsWith "_"))).filter
    (fun c => !(["Program", "Project"].contains c))

/-- `meta_upload(source_path, program, project, silent, dictionary_path,
config_path)`: assert the three path/config/dictionary preconditions, read
the config, call `ensure_project`, re-check that program and project rows
exist, assert that the glob found files, then run the vertex and the edge
load.  Returns the final state plus `some message` when an assertion fired. -/
def metaUpload (env : Env) (program project : String) (ts : Nat) (st : LoadState) :
    LoadState × Option String :=
  if !env.sourceIsDir then (st, some (env.sourcePath ++ " should be a directory"))
  else if !env.configIsFile then (st, some (env.configPath ++ " should be a file"))
  else if env.dictionaryPath = "" then (st, some "dictionary_path cannot be empty")
  else
    let dependencyOrder := depOrderOf env.rawDependencyOrder
    let st1 := { st with db := (ensureProject st.db program project ts).db }
    match (st1.db.vtables "node_program").find? (fun kv => propsNameIs kv.2.props program) with
    | none => (st1, some (program ++ " not found in node_program table"))
    | some _ =>
      match (st1.db.vtables "node_project").find? (fun kv => propsCodeIs kv.2.props project) with
      | none => (st1, some (project ++ " not found in node_project"))
      | some pkv =>
        let projectNodeId := pkv.1
        let projectId := program ++ "-" ++ project
        if env.files.isEmpty then
          (st1, some ("No files found at " ++ env.sourcePath ++ "/**/*.ndjson"))
        else
          let st2 :=
            { st1 with db := loadVertices env.files dependencyOrder projectId env.mapping ts st1.db }
          (loadEdges env.files dependencyOrder env.mapping projectNodeId ts st2, none)

/-- The edge rows carried by an action trace, in order, stamped with this
run's timestamp. -/
def erowsOf (ts : Nat) (acts : List Act) : List (String × (String × String) × Nat) :=
  acts.filterMap (fun a =>
    match a with
    | Act.row tn src dst => some (tn, (src, dst), ts)
    | _ => none)

/-- One full graph load as run by `meta_upload`: `load_vertices` then
`load_edges` over the same files, ordering and mapping. -/
def graphLoad (files : List NdFile) (dependencyOrder : List String)
    (projectId : String) (mapping : List MapEntry) (projectNodeId : String)
    (ts : Nat) (st : LoadState) : LoadState :=
  loadEdges files dependencyOrder mapping projectNodeId ts
    { st with db := loadVertices files dependencyOrder projectId mapping ts st.db }

/-- A character that is neither a newline, a tab nor a carriage return: it
cannot interfere with COPY text-format row/field framing. -/
def tameChar (c : Char) : Bool :=
  !(c = '\n' || c = '\t' || c = '\r')

/-- Every character of the list is framing-safe. -/
def allTame (l : List Char) : Bool :=
  l.all tameChar

/-- One lower-case hex digit, as `json.dumps` emits in `\uXXXX` escapes. -/
def hexDigit (n : Nat) : Char :=
  if n % 16 < 10 then Char.ofNat (48 + n % 16) else Char.ofNat (87 + n % 16)

/-- Four hex digits of a BMP code unit. -/
def hex4 (n : Nat) : List Char :=
  [hexDigit (n / 4096), hexDigit (n / 256), hexDigit (n / 16), hexDigit n]

/-- The `\uXXXX` escape of one code point (a surrogate pair above the BMP),
as `json.dumps` with its default `ensure_ascii=True` emits for control and
non-ASCII characters. -/
def escUnicode (n : Nat) : List Char :=
  if n < 65536 then '\\' :: 'u' :: hex4 n
  else
    ('\\' :: 'u' :: hex4 (55296 + (n - 65536) / 1024)) ++
      ('\\' :: 'u' :: hex4 (56320 + (n - 65536) % 1024))

/-- Escaping of one character inside a `json.dumps` string literal (default
settings: `ensure_ascii=True`), so the emitted JSON text never contains a raw
control character. -/
def escChar (c : Char) : List Char :=
  if c = '\\' then ['\\', '\\']
  else if c = '"' then ['\\', '"']
  else if c = '\n' then ['\\', 'n']
  else if c = '\t' then ['\\', 't']
  else if c = '\r' then ['\\', 'r']
  else if c = Char.ofNat 8 then ['\\', 'b']
  else if c = Char.ofNat 12 then ['\\', 'f']
  else if c.toNat < 32 ∨ c.toNat > 126 then escUnicode c.toNat
  else [c]

/-- One decimal digit character. -/
def digitChar (n : Nat) : Char :=
  Char.ofNat (48 + n % 10)

/-- Decimal digits of a number, most significant first, structurally
recursive on a fuel bound (any fuel at least the number itself suffices). -/
def natDigitsAux : Nat → Nat → List Char → List Char
  | 0, _, acc => acc
  | _ + 1, 0, acc => acc
  | fuel + 1, n + 1, acc => natDigitsAux fuel ((n + 1) / 10) (digitChar (n + 1) :: acc)

/-- `json.dumps` rendering of an integer (Python `repr` of an `int`). -/
def intToChars : Int → List Char
  | Int.ofNat 0 => ['0']
  | Int.ofNat (n + 1) => natDigitsAux (n + 1) (n + 1) []
  | Int.negSucc n => '-' :: natDigitsAux (n + 2) (n + 2) []

/-- A `json.dumps` string literal. -/
def strLit (s : String) : List Char :=
  '"' :: (s.data.flatMap escChar ++ ['"'])

/-- Join pre-rendered items with the default `json.dumps` item separator. -/
def joinCommaSpace : List (List Char) → List Char
  | [] => []
  | [x] => x
  | x :: y :: xs => x ++ ',' :: ' ' :: joinCommaSpace (y :: xs)

mutual

/-- `json.dumps(value)` with default settings: the JSON text of a value,
with `", "` between items and `": "` between a key and its value. -/
def jsonDumps : Json → List Char
  | Json.null => "null".data
  | Json.bool true => "true".data
  | Json.bool false => "false".data
  | Json.num i => intToChars i
  | Json.str s => strLit s
  | Json.arr xs => '[' :: (jsonDumpsList xs ++ [']'])
  | Json.obj kvs => '{' :: (jsonDumpsKvs kvs ++ ['}'])

/-- Array items of `json.dumps`, comma-space separated. -/
def jsonDumpsList : List Json → List Char
  | [] => []
  | [x] => jsonDumps x
  | x :: y :: xs => jsonDumps x ++ ',' :: ' ' :: jsonDumpsList (y :: xs)

/-- Object entries of `json.dumps`, comma-space separated. -/
def jsonDumpsKvs : List (String × Json) → List Char
  | [] => []
  | [kv] => strLit kv.1 ++ ':' :: ' ' :: jsonDumps kv.2
  | kv :: kv2 :: kvs =>
    (strLit kv.1 ++ ':' :: ' ' :: jsonDumps kv.2) ++ ',' :: ' ' :: jsonDumpsKvs (kv2 :: kvs)

end

/-- The tab-delimited staging line of one vertex record before escaping:
`f"{d_['id']}\t{obj_str}\t{{}}\t{{}}\t{datetime.now()}"` (the two `{}` are
the constant `acl`/`_sysan` columns, `ts` the rendered timestamp). -/
def rawVertexLine (id : String) (objStr : List Char) (ts : List Char) : List Char :=
  id.data ++ '\t' :: (objStr ++ '\t' :: '{' :: '}' :: '\t' :: '{' :: '}' :: '\t' :: ts)

/-- `.replace('\n', '\\n')`: each raw newline becomes backslash-`n`. -/
def escapeNewlines (l : List Char) : List Char :=
  l.flatMap (fun c => if c = '\n' then ['\\', 'n'] else [c])

/-- `.replace("\\", "\\\\")`: each backslash is doubled. -/
def doubleBackslashes (l : List Char) : List Char :=
  l.flatMap (fun c => if c = '\\' then ['\\', '\\'] else [c])

/-- The staged line `load_vertices` writes into the COPY buffer for one
record (without the terminating newline appended afterwards): the raw line
for the record's object with `project_id` injected, with newlines escaped and
then every backslash doubled, in that source order. -/
def stagedVertexLine (id : String) (obj : Props) (projectId : String)
    (ts : List Char) : List Char :=
  doubleBackslashes (escapeNewlines
    (rawVertexLine id (jsonDumps (Json.obj (setKey obj "project_id" (Json.str projectId)))) ts))

/-- Decoding of one escape character in COPY text format: `\n`, `\t`, `\r`
decode to the control character, any other escaped character to itself. -/
def decodeEsc (c : Char) : Char :=
  if c = 'n' then '\n' else if c = 't' then '\t' else if c = 'r' then '\r' else c

/-- COPY text-format unescaping of one field. -/
def copyUnescape : List Char → List Char
  | [] => []
  | [c] => [c]
  | c :: c2 :: rest =>
    if c = '\\' then decodeEsc c2 :: copyUnescape rest
    else c :: copyUnescape (c2 :: rest)

/-- COPY text-format field splitting on raw tab characters. -/
def splitTab : List Char → List (List Char) :=
  splitOnChar '\t'

/-- Decoding of one staged COPY row: split into fields on raw tabs, then
unescape each field. -/
def decodeRow (line : List Char) : List (List Char) :=
  (splitTab line).map copyUnescape

/-- Fixture: a Patient record with no relations (the §8 end-to-end scenario). -/
def patientRec : VertexRecord :=
  ⟨"p1", "Patient", [("name", Json.str "Alice")], []⟩

/-- Fixture: an Observation record with one relation to the patient. -/
def obsRec : VertexRecord :=
  ⟨"o1", "Observation", [("value", Json.num 5)], [⟨"p1", "Patient", "subject"⟩]⟩

/-- Fixture: the Patient ndjson file. -/
def patientFile : NdFile := ⟨"Patient.ndjson", [patientRec]⟩

/-- Fixture: the Observation ndjson file. -/
def obsFile : NdFile := ⟨"Observation.ndjson", [obsRec]⟩

/-- Fixture: a one-association schema mapping (Observation → Patient). -/
def demoMapping : List MapEntry :=
  [⟨"Observation", "Patient", "node_observation", "node_patient",
    "edge_observation_patient", "subject"⟩]

/-- Fixture: an Observation record with two relations to the same patient
under different labels. -/
def obsDupRec : VertexRecord :=
  ⟨"o2", "Observation", [("value", Json.num 6)],
   [⟨"p1", "Patient", "labelA"⟩, ⟨"p1", "Patient", "labelB"⟩]⟩

/-- Fixture: the ndjson file holding the duplicate-relation record. -/
def obsDupFile : NdFile := ⟨"Observation.ndjson", [obsDupRec]⟩

/-- Fixture: a ResearchStudy record with an empty relations list. -/
def rsRec : VertexRecord :=
  ⟨"rs1", "ResearchStudy", [("name", Json.str "Study")], []⟩

/-- Fixture: the ResearchStudy ndjson file. -/
def rsFile : NdFile := ⟨"ResearchStudy.ndjson", [rsRec]⟩

/-- Fixture: a mapping holding the ResearchStudy → Project association. -/
def rsMapping : List MapEntry :=
  [⟨"ResearchStudy", "Project", "node_researchstudy", "node_project",
    "edge_researchstudyprojectmember", "project"⟩]

/-- Fixture: the empty store. -/
def emptyDB : DB := ⟨fun _ => [], fun _ => []⟩

/-- Fixture: a `meta_upload` environment whose path preconditions hold but
whose glob found no ndjson files. -/
def noFilesEnv : Env :=
  ⟨"src", true, "cfg", true, "dict", ["Patient"], [], demoMapping⟩

/-- Fixture: the initial load state (empty store, nothing logged yet). -/
def initState : LoadState := ⟨emptyDB, [], []⟩

section AssocLemmas

variable {K V W : Type} [DecidableEq K]

theorem any_key_iff (t : List (K × V)) (k : K) :
    (t.any (fun kv => kv.1 = k)) = true ↔ k ∈ t.map Prod.fst := by
  simp [List.any_eq_true, List.mem_map]

theorem lookupA_nil (k : K) : lookupA ([] : List (K × V)) k = none := rfl

theorem lookupA_cons (kv : K × V) (t : List (K × V)) (k : K) :
    lookupA (kv :: t) k = if kv.1 = k then some kv.2 else lookupA t k := by
  by_cases h : kv.1 = k <;> simp [lookupA, List.find?_cons, h]

theorem lookupA_append (s t : List (K × V)) (k : K) :
    lookupA (s ++ t) k = (lookupA s k).orElse (fun _ => lookupA t k) := by
  induction s with
  | nil => simp [lookupA_nil]
  | cons kv s ih =>
    by_cases h : kv.1 = k <;> simp [lookupA_cons, h, ih]

theorem lookupA_isSome_iff (t : List (K × V)) (k : K) :
    (lookupA t k).isSome = true ↔ k ∈ t.map Prod.fst := by
  induction t with
  | nil => simp [lookupA_nil]
  | cons kv t ih =>
    by_cases h : kv.1 = k <;> simp [lookupA_cons, h, ih]
    exact fun hk => (h hk.symm).elim

theorem keys_upsertA (t : List (K × V)) (k : K) (v : V) :
    (upsertA t k v).map Prod.fst =
      if k ∈ t.map Prod.fst then t.map Prod.fst else t.map Prod.fst ++ [k] := by
  by_cases h : k ∈ t.map Prod.fst
  · rw [upsertA, if_pos ((any_key_iff t k).mpr h), if_pos h, List.map_map]
    refine List.map_congr_left (fun kv _ => ?_)
    by_cases hkv : kv.1 = k <;> simp [hkv]
  · rw [upsertA, if_neg, if_neg h]
    · simp
    · intro hany
      exact h ((any_key_iff t k).mp hany)

theorem lookupA_upsertA_self (t : List (K × V)) (k : K) (v : V) :
    lookupA (upsertA t k v) k = some v := by
  rw [upsertA]
  by_cases h : (t.any (fun kv => kv.1 = k)) = true
  · rw [if_pos h]
    rw [any_key_iff] at h
    induction t with
    | nil => simp at h
    | cons kv t ih =>
      rcases List.mem_cons.mp h with h1 | h1
      · simp [lookupA_cons, h1.symm]
      · by_cases hkv : kv.1 = k <;> simp [lookupA_cons, hkv, ih h1]
  · rw [if_neg h, lookupA_append]
    have hnone : lookupA t k = none := by
      cases hl : lookupA t k with
      | none => rfl
      | some v' =>
        exfalso
        apply h
        rw [any_key_iff, ← lookupA_isSome_iff, hl]
        rfl
    simp [hnone, lookupA_cons]

theorem lookupA_map_update_ne (t : List (K × V)) (k k' : K) (v : V) (h : k' ≠ k) :
    lookupA (t.map (fun kv => if kv.1 = k then (k, v) else kv)) k' = lookupA t k' := by
  induction t with
  | nil => rfl
  | cons kv t ih =>
    by_cases hkv : kv.1 = k
    · have h1 : ¬ (k = k') := fun hh => h hh.symm
      have h2 : ¬ (kv.1 = k') := by rw [hkv]; exact h1
      simp [hkv, lookupA_cons, h1, h2, ih]
    · by_cases hkv' : kv.1 = k' <;> simp [hkv, lookupA_cons, hkv', h, ih]

theorem lookupA_upsertA_ne (t : List (K × V)) (k k' : K) (v : V) (h : k' ≠ k) :
    lookupA (upsertA t k v) k' = lookupA t k' := by
  rw [upsertA]
  by_cases hany : (t.any (fun kv => kv.1 = k)) = true
  · rw [if_pos hany]
    exact lookupA_map_update_ne t k k' v h
  · rw [if_neg hany, lookupA_append]
    have h1 : lookupA [(k, v)] k' = none := by
      have h2 : ¬ (k = k') := fun hh => h hh.symm
      simp [lookupA_cons, h2, lookupA_nil]
    rw [h1]
    cases lookupA t k' <;> rfl

theorem nodup_keys_upsertA (t : List (K × V)) (k : K) (v : V)
    (h : (t.map Prod.fst).Nodup) : ((upsertA t k v).map Prod.fst).Nodup := by
  rw [keys_upsertA]
  by_cases hk : k ∈ t.map Prod.fst
  · rwa [if_pos hk]
  · rw [if_neg hk]
    simp [List.nodup_append, h, hk]

theorem mem_keys_upsertA_self (t : List (K × V)) (k : K) (v : V) :
    k ∈ (upsertA t k v).map Prod.fst := by
  rw [keys_upsertA]
  by_cases h : k ∈ t.map Prod.fst <;> simp [h]

theorem mem_keys_upsertA_of_mem (t : List (K × V)) (k k' : K) (v : V)
    (h : k' ∈ t.map Prod.fst) : k' ∈ (upsertA t k v).map Prod.fst := by
  rw [keys_upsertA]
  by_cases hk : k ∈ t.map Prod.fst <;> simp [hk, h]

theorem map_eq_of_keys_lookup (f : V → W) (t1 t2 : List (K × V))
    (hkeys : t1.map Prod.fst = t2.map Prod.fst)
    (hnodup : (t1.map Prod.fst).Nodup)
    (hlook : ∀ k, (lookupA t1 k).map f = (lookupA t2 k).map f) :
    t1.map (fun kv => (kv.1, f kv.2)) = t2.map (fun kv => (kv.1, f kv.2)) := by
  induction t1 generalizing t2 with
  | nil =>
    cases t2 with
    | nil => rfl
    | cons kv2 t2 => simp at hkeys
  | cons kv1 t1 ih =>
    cases t2 with
    | nil => simp at hkeys
    | cons kv2 t2 =>
      simp only [List.map_cons, List.cons.injEq] at hkeys
      obtain ⟨hhead, htail⟩ := hkeys
      have hv : f kv1.2 = f kv2.2 := by
        have h1 := hlook kv1.1
        rw [lookupA_cons, if_pos rfl, lookupA_cons, if_pos hhead.symm] at h1
        simpa using h1
      have hnd : (t1.map Prod.fst).Nodup := (List.nodup_cons.mp hnodup).2
      have hmem : kv1.1 ∉ t1.map Prod.fst := (List.nodup_cons.mp hnodup).1
      have htl : ∀ k, (lookupA t1 k).map f = (lookupA t2 k).map f := by
        intro k
        by_cases hk : k = kv1.1
        · rw [hk]
          have h1 : lookupA t1 kv1.1 = none := by
            cases hl : lookupA t1 kv1.1 with
            | none => rfl
            | some v =>
              exact absurd ((lookupA_isSome_iff t1 kv1.1).mp (by rw [hl]; rfl)) hmem
          have h2 : lookupA t2 kv1.1 = none := by
            cases hl : lookupA t2 kv1.1 with
            | none => rfl
            | some v =>
              exact absurd (htail.symm ▸ (lookupA_isSome_iff t2 kv1.1).mp (by rw [hl]; rfl)) hmem
          rw [h1, h2]
        · have h1 := hlook k
          have hne1 : ¬ (kv1.1 = k) := fun hh => hk hh.symm
          have hne2 : ¬ (kv2.1 = k) := by rw [← hhead]; exact hne1
          rwa [lookupA_cons, lookupA_cons, if_neg hne1, if_neg hne2] at h1
      simp only [List.map_cons, List.cons.injEq]
      exact ⟨by rw [hhead, hv], ih t2 htail hnd htl⟩

theorem applyRows_cons (tabs : String → List (K × V)) (r : String × K × V)
    (rows : List (String × K × V)) :
    applyRows tabs (r :: rows) =
      applyRows (fun n => if n = r.1 then upsertA (tabs n) r.2.1 r.2.2 else tabs n) rows := rfl

theorem lastRowFor_nil (n : String) (k : K) :
    lastRowFor ([] : List (String × K × V)) n k = none := rfl

theorem lastRowFor_cons (r : String × K × V) (rows : List (String × K × V))
    (n : String) (k : K) :
    lastRowFor (r :: rows) n k =
      (lastRowFor rows n k).orElse (fun _ =>
        if r.1 = n ∧ r.2.1 = k then some r.2.2 else none) := by
  unfold lastRowFor
  rw [List.reverse_cons, List.find?_append]
  cases hf : rows.reverse.find? (fun r => decide (r.1 = n ∧ r.2.1 = k)) with
  | none =>
    by_cases h : r.1 = n ∧ r.2.1 = k <;> simp [List.find?_cons, h]
  | some x => simp

theorem lookupA_applyRows (tabs : String → List (K × V)) (rows : List (String × K × V))
    (n : String) (k : K) :
    lookupA (applyRows tabs rows n) k =
      (lastRowFor rows n k).orElse (fun _ => lookupA (tabs n) k) := by
  induction rows generalizing tabs with
  | nil => cases h : lookupA (tabs n) k <;> simp [applyRows, lastRowFor_nil, h]
  | cons r rows ih =>
    rw [applyRows_cons, ih, lastRowFor_cons]
    cases hl : lastRowFor rows n k with
    | some v => simp
    | none =>
      simp only [Option.none_orElse']
      by_cases hn : n = r.1
      · subst hn
        by_cases hk : k = r.2.1
        · subst hk
          rw [if_pos rfl, lookupA_upsertA_self]
          simp
        · rw [if_pos rfl, lookupA_upsertA_ne _ _ _ _ hk]
          rw [if_neg (fun hh : r.1 = r.1 ∧ r.2.1 = k => hk hh.2.symm)]
          simp
      · rw [if_neg hn]
        rw [if_neg (fun hh : r.1 = n ∧ r.2.1 = k => hn hh.1.symm)]
        simp

theorem mem_keys_applyRows_of_mem (tabs : String → List (K × V))
    (rows : List (String × K × V)) (n : String) (k : K)
    (h : k ∈ (tabs n).map Prod.fst) :
    k ∈ (applyRows tabs rows n).map Prod.fst := by
  induction rows generalizing tabs with
  | nil => exact h
  | cons r rows ih =>
    rw [applyRows_cons]
    apply ih
    by_cases hn : n = r.1
    · rw [if_pos hn]
      exact mem_keys_upsertA_of_mem _ _ _ _ h
    · rwa [if_neg hn]

theorem mem_keys_applyRows_of_mem_rows (tabs : String → List (K × V))
    (rows : List (String × K × V)) (r : String × K × V) (h : r ∈ rows) :
    r.2.1 ∈ (applyRows tabs rows r.1).map Prod.fst := by
  induction rows generalizing tabs with
  | nil => cases h
  | cons r0 rows ih =>
    rw [applyRows_cons]
    rcases List.mem_cons.mp h with h1 | h1
    · subst h1
      apply mem_keys_applyRows_of_mem
      rw [if_pos rfl]
      exact mem_keys_upsertA_self _ _ _
    · exact ih _ h1

theorem keys_applyRows_of_all_mem (tabs : String → List (K × V))
    (rows : List (String × K × V))
    (h : ∀ r ∈ rows, r.2.1 ∈ (tabs r.1).map Prod.fst) (n : String) :
    (applyRows tabs rows n).map Prod.fst = (tabs n).map Prod.fst := by
  induction rows generalizing tabs with
  | nil => rfl
  | cons r rows ih =>
    rw [applyRows_cons]
    have hr : r.2.1 ∈ (tabs r.1).map Prod.fst := h r (List.mem_cons_self r rows)
    have hstep : ∀ m, ((if m = r.1 then upsertA (tabs m) r.2.1 r.2.2 else tabs m) : List (K × V)).map Prod.fst = (tabs m).map Prod.fst := by
      intro m
      by_cases hm : m = r.1
      · rw [if_pos hm, hm, keys_upsertA, if_pos hr]
      · rw [if_neg hm]
    rw [ih _ (fun r' hr' => by rw [hstep r'.1]; exact h r' (List.mem_cons_of_mem r hr')), hstep n]

theorem nodup_keys_applyRows (tabs : String → List (K × V))
    (rows : List (String × K × V))
    (h : ∀ n, ((tabs n).map Prod.fst).Nodup) (n : String) :
    ((applyRows tabs rows n).map Prod.fst).Nodup := by
  induction rows generalizing tabs with
  | nil => exact h n
  | cons r rows ih =>
    rw [applyRows_cons]
    apply ih
    intro m
    by_cases hm : m = r.1
    · rw [if_pos hm]
      exact nodup_keys_upsertA _ _ _ (h m)
    · rw [if_neg hm]
      exact h m

theorem count_key_eq_one (t : List (K × V)) (k : K)
    (hmem : k ∈ t.map Prod.fst) (hnodup : (t.map Prod.fst).Nodup) :
    t.countP (fun kv => kv.1 = k) = 1 := by
  have h1 : t.countP (fun kv => kv.1 = k) = (t.map Prod.fst).countP (fun x => x = k) := by
    rw [List.countP_map]
    rfl
  rw [h1]
  have h2 : (t.map Prod.fst).countP (fun x => x = k) = (t.map Prod.fst).count k := by
    rw [List.count]
    refine List.countP_congr (fun x _ => ?_)
    simp [BEq.beq]
  rw [h2]
  exact List.count_eq_one_of_mem hnodup hmem

end AssocLemmas

theorem chunkListAux_flatten {α : Type} (n : Nat) (hn : n ≠ 0) :
    ∀ (fuel : Nat) (xs : List α), xs.length ≤ fuel →
      (chunkListAux fuel n xs).flatten = xs := by
  intro fuel
  induction fuel with
  | zero =>
    intro xs hxs
    cases xs with
    | nil => rfl
    | cons x xs => simp at hxs
  | succ fuel ih =>
    intro xs hxs
    cases xs with
    | nil => rfl
    | cons x xs =>
      rw [chunkListAux, if_neg hn, List.flatten_cons, ih ((x :: xs).drop n) ?_,
        List.take_append_drop]
      simp only [List.length_drop, List.length_cons]
      simp only [List.length_cons] at hxs
      omega

theorem chunkList_flatten {α : Type} (n : Nat) (hn : n ≠ 0) (xs : List α) :
    (chunkList n xs).flatten = xs :=
  chunkListAux_flatten n hn xs.length xs (Nat.le_refl _)

theorem flatMap_flatten {α β : Type} (L : List (List α)) (g : α → List β) :
    L.flatten.flatMap g = L.flatMap (fun ch => ch.flatMap g) := by
  induction L with
  | nil => rfl
  | cons l L ih => simp [List.flatMap_append, ih]

theorem flatMap_chunkList {α β : Type} (n : Nat) (hn : n ≠ 0) (xs : List α)
    (g : α → List β) :
    (chunkList n xs).flatMap (fun ch => ch.flatMap g) = xs.flatMap g := by
  rw [← flatMap_flatten, chunkList_flatten n hn]

theorem map_chunkList {α β : Type} (n : Nat) (hn : n ≠ 0) (xs : List α)
    (g : α → β) :
    (chunkList n xs).flatMap (fun ch => ch.map g) = xs.map g := by
  have h : ∀ ch : List α, ch.map g = ch.flatMap (fun x => [g x]) := by
    intro ch
    induction ch with
    | nil => rfl
    | cons x ch ih => simp [ih]
  rw [List.flatMap_congr (fun ch _ => h ch), flatMap_chunkList n hn, ← h]

theorem applyActs_nil (ts : Nat) (st : LoadState) : applyActs ts st [] = st := rfl

theorem applyActs_cons (ts : Nat) (st : LoadState) (a : Act) (acts : List Act) :
    applyActs ts st (a :: acts) = applyActs ts (applyAct ts st a) acts := rfl

theorem applyActs_append (ts : Nat) (st : LoadState) (l1 l2 : List Act) :
    applyActs ts st (l1 ++ l2) = applyActs ts (applyActs ts st l1) l2 := by
  simp [applyActs, List.foldl_append]

theorem applyAct_vtables (ts : Nat) (st : LoadState) (a : Act) :
    (applyAct ts st a).db.vtables = st.db.vtables := by
  cases a with
  | row tn src dst => rfl
  | warnOnce msg => by_cases h : msg ∈ st.logged <;> simp [applyAct, h]
  | printOnce msg => by_cases h : msg ∈ st.logged <;> simp [applyAct, h]
  | warnAlways msg => rfl

theorem applyActs_vtables (ts : Nat) (st : LoadState) (acts : List Act) :
    (applyActs ts st acts).db.vtables = st.db.vtables := by
  induction acts generalizing st with
  | nil => rfl
  | cons a acts ih => rw [applyActs_cons, ih, applyAct_vtables]

theorem applyActs_etables (ts : Nat) (st : LoadState) (acts : List Act) :
    (applyActs ts st acts).db.etables = applyRows st.db.etables (erowsOf ts acts) := by
  induction acts generalizing st with
  | nil => rfl
  | cons a acts ih =>
    rw [applyActs_cons, ih]
    cases a with
    | row tn src dst =>
      have he : erowsOf ts (Act.row tn src dst :: acts) =
          (tn, (src, dst), ts) :: erowsOf ts acts := rfl
      rw [he, applyRows_cons]
      have hfun :
          (fun n => if n = tn then upsertA (st.db.etables n) (src, dst) ts else st.db.etables n) =
            (applyAct ts st (Act.row tn src dst)).db.etables := by
        funext m
        by_cases hm : m = tn
        · subst hm
          simp [applyAct, DB.setE]
        · simp [applyAct, DB.setE, hm]
      rw [hfun]
    | warnOnce msg =>
      have he : erowsOf ts (Act.warnOnce msg :: acts) = erowsOf ts acts := rfl
      rw [he]
      by_cases h : msg ∈ st.logged <;> simp [applyAct, h]
    | printOnce msg =>
      have he : erowsOf ts (Act.printOnce msg :: acts) = erowsOf ts acts := rfl
      rw [he]
      by_cases h : msg ∈ st.logged <;> simp [applyAct, h]
    | warnAlways msg =>
      have he : erowsOf ts (Act.warnAlways msg :: acts) = erowsOf ts acts := rfl
      rw [he]
      rfl

theorem lastRowFor_map_stamp {K P V : Type} [DecidableEq K]
    (plan : List (String × K × P)) (h : P → V) (n : String) (k : K) :
    lastRowFor (plan.map (fun p => (p.1, p.2.1, h p.2.2))) n k =
      (lastRowFor plan n k).map h := by
  unfold lastRowFor
  rw [← List.map_reverse, List.find?_map]
  have hp : ((fun r : String × K × V => decide (r.1 = n ∧ r.2.1 = k)) ∘
      (fun p : String × K × P => (p.1, p.2.1, h p.2.2))) =
      (fun p : String × K × P => decide (p.1 = n ∧ p.2.1 = k)) := rfl
  rw [hp]
  cases plan.reverse.find? (fun p => decide (p.1 = n ∧ p.2.1 = k)) <;> rfl

theorem lastRowFor_stampVRow (plan : List (String × String × Props)) (ts : Nat)
    (n k : String) :
    lastRowFor (plan.map (fun p => (p.1, p.2.1, (⟨p.2.2, ts⟩ : VRow)))) n k =
      (lastRowFor plan n k).map (fun props => (⟨props, ts⟩ : VRow)) :=
  lastRowFor_map_stamp plan (fun props => (⟨props, ts⟩ : VRow)) n k

theorem erowsOf_stamp (ts ts' : Nat) (acts : List Act) :
    erowsOf ts acts = (erowsOf ts' acts).map (fun r => (r.1, r.2.1, ts)) := by
  induction acts with
  | nil => rfl
  | cons a acts ih =>
    cases a with
    | row tn src dst =>
      have h1 : erowsOf ts (Act.row tn src dst :: acts) =
          (tn, (src, dst), ts) :: erowsOf ts acts := rfl
      have h2 : erowsOf ts' (Act.row tn src dst :: acts) =
          (tn, (src, dst), ts') :: erowsOf ts' acts := rfl
      rw [h1, h2, List.map_cons, ih]
    | warnOnce msg => exact ih
    | printOnce msg => exact ih
    | warnAlways msg => exact ih

/-- C1: loading the same set of ndjson files twice in a row (same
program/project id, same mapping) leaves every vertex table with the same
row count and the same `(node_id, _props)` values and every edge table with
the same set of `(src_id, dst_id)` keys as after the first run: the second
run's upserts only overwrite existing rows keyed by `node_id` (vertices) or
`(src_id, dst_id)` (edges) and never add a duplicate row.  The hypotheses
record well-formedness of the store (unique primary keys) and the batch
preconditions under which the set-based `ON CONFLICT` merges of the source
are exactly the modelled row-wise upserts (no ndjson file repeats a record
id, and no ResearchStudy record carries an explicit relation to the project
node that would duplicate the synthetic one inside one staged buffer). -/
theorem load_twice_idempotent
    (files : List NdFile) (dependencyOrder : List String) (projectId : String)
    (mapping : List MapEntry) (projectNodeId : String) (ts1 ts2 : Nat) (st : LoadState)
    (hwfv : ∀ tn, ((st.db.vtables tn).map Prod.fst).Nodup)
    (hids : ∀ f ∈ files, (f.records.map VertexRecord.id).Nodup)
    (hrs : ∀ f ∈ files, ∀ rec ∈ f.records,
      (rec.name = "ResearchStudy" ∨ rec.name = "research_study") →
      ∀ r ∈ rec.relations, r.dst_id ≠ projectNodeId) :
    ∀ tn,
      ((graphLoad files dependencyOrder projectId mapping projectNodeId ts2
          (graphLoad files dependencyOrder projectId mapping projectNodeId ts1 st)).db.vtables tn).map
          (fun kv => (kv.1, kv.2.props)) =
        ((graphLoad files dependencyOrder projectId mapping projectNodeId ts1 st).db.vtables tn).map
          (fun kv => (kv.1, kv.2.props)) ∧
      ((graphLoad files dependencyOrder projectId mapping projectNodeId ts2
          (graphLoad files dependencyOrder projectId mapping projectNodeId ts1 st)).db.etables tn).map
          Prod.fst =
        ((graphLoad files dependencyOrder projectId mapping projectNodeId ts1 st).db.etables tn).map
          Prod.fst ∧
      ((graphLoad files dependencyOrder projectId mapping projectNodeId ts2
          (graphLoad files dependencyOrder projectId mapping projectNodeId ts1 st)).db.vtables tn).length =
        ((graphLoad files dependencyOrder projectId mapping projectNodeId ts1 st).db.vtables tn).length ∧
      ((graphLoad files dependencyOrder projectId mapping projectNodeId ts2
          (graphLoad files dependencyOrder projectId mapping projectNodeId ts1 st)).db.etables tn).length =
        ((graphLoad files dependencyOrder projectId mapping projectNodeId ts1 st).db.etables tn).length := by
  clear hids hrs
  set vplan := vertexPlan files dependencyOrder projectId mapping with hvplan
  set acts := loadEdgesActs files dependencyOrder mapping projectNodeId with hacts
  set s1 := graphLoad files dependencyOrder projectId mapping projectNodeId ts1 st with hs1
  set s2 := graphLoad files dependencyOrder projectId mapping projectNodeId ts2 s1 with hs2
  have h1 : s1 = applyActs ts1
      { st with db := loadVertices files dependencyOrder projectId mapping ts1 st.db } acts := rfl
  have h2 : s2 = applyActs ts2
      { s1 with db := loadVertices files dependencyOrder projectId mapping ts2 s1.db } acts := rfl
  have hA : s1.db.vtables = applyRows st.db.vtables
      (vplan.map (fun p => (p.1, p.2.1, (⟨p.2.2, ts1⟩ : VRow)))) := by
    rw [h1, applyActs_vtables]
    rfl
  have hB : s2.db.vtables = applyRows s1.db.vtables
      (vplan.map (fun p => (p.1, p.2.1, (⟨p.2.2, ts2⟩ : VRow)))) := by
    rw [h2, applyActs_vtables]
    rfl
  have hC : s1.db.etables = applyRows st.db.etables (erowsOf ts1 acts) := by
    rw [h1, applyActs_etables]
    rfl
  have hD : s2.db.etables = applyRows s1.db.etables (erowsOf ts2 acts) := by
    rw [h2, applyActs_etables]
    rfl
  have hkeysv : ∀ tn, (s2.db.vtables tn).map Prod.fst = (s1.db.vtables tn).map Prod.fst := by
    intro tn
    rw [hB]
    apply keys_applyRows_of_all_mem
    intro r hr
    obtain ⟨p, hp, rfl⟩ := List.mem_map.mp hr
    have hm1 : (p.1, p.2.1, (⟨p.2.2, ts1⟩ : VRow)) ∈
        vplan.map (fun p => (p.1, p.2.1, (⟨p.2.2, ts1⟩ : VRow))) :=
      List.mem_map_of_mem _ hp
    have hm2 := mem_keys_applyRows_of_mem_rows st.db.vtables _ _ hm1
    rw [← hA] at hm2
    exact hm2
  have hnodup1 : ∀ tn, ((s1.db.vtables tn).map Prod.fst).Nodup := by
    intro tn
    rw [hA]
    exact nodup_keys_applyRows _ _ hwfv tn
  have hpoint : ∀ tn k, (lookupA (s2.db.vtables tn) k).map VRow.props =
      (lookupA (s1.db.vtables tn) k).map VRow.props := by
    intro tn k
    rw [hB, lookupA_applyRows, lastRowFor_stampVRow]
    cases hlast : lastRowFor vplan tn k with
    | some props =>
      rw [hA, lookupA_applyRows, lastRowFor_stampVRow, hlast]
      simp
    | none => simp
  have hkeyse : ∀ tn, (s2.db.etables tn).map Prod.fst = (s1.db.etables tn).map Prod.fst := by
    intro tn
    rw [hD]
    apply keys_applyRows_of_all_mem
    intro r hr
    rw [erowsOf_stamp ts2 ts1 acts] at hr
    obtain ⟨q, hq, rfl⟩ := List.mem_map.mp hr
    have hm2 := mem_keys_applyRows_of_mem_rows st.db.etables _ _ hq
    rw [← hC] at hm2
    exact hm2
  intro tn
  refine ⟨?_, hkeyse tn, ?_, ?_⟩
  · apply map_eq_of_keys_lookup VRow.props _ _ (hkeysv tn)
    · rw [hkeysv tn]
      exact hnodup1 tn
    · exact hpoint tn
  · have hl := congrArg List.length (hkeysv tn)
    simpa using hl
  · have hl := congrArg List.length (hkeyse tn)
    simpa using hl

/-- Witness for C1 at the §8 end-to-end fixture: both runs leave the
`node_patient` table with the same `(node_id, _props)` rows. -/
theorem load_twice_idempotent_witness :
    ((graphLoad [patientFile, obsFile] ["Patient", "Observation"] "prog-proj" demoMapping
        "proj-node-1" 1
        (graphLoad [patientFile, obsFile] ["Patient", "Observation"] "prog-proj" demoMapping
          "proj-node-1" 0 initState)).db.vtables "node_patient").map
        (fun kv => (kv.1, kv.2.props)) =
      ((graphLoad [patientFile, obsFile] ["Patient", "Observation"] "prog-proj" demoMapping
          "proj-node-1" 0 initState).db.vtables "node_patient").map
        (fun kv => (kv.1, kv.2.props)) :=
  (load_twice_idempotent [patientFile, obsFile] ["Patient", "Observation"] "prog-proj"
    demoMapping "proj-node-1" 0 1 initState
    (fun _ => List.nodup_nil)
    (by decide)
    (by decide)
    "node_patient").1

theorem selectFile_eq_find? (files : List NdFile) (t : String) :
    selectFile files t = files.find? (fun f => pathEndsWith f.path (t ++ ".ndjson")) := by
  induction files with
  | nil => rfl
  | cons f fs ih =>
    by_cases h : pathEndsWith f.path (t ++ ".ndjson") = true
    · simp [selectFile, List.filter_cons, List.find?_cons, h]
    · rw [Bool.not_eq_true] at h
      rw [selectFile, List.filter_cons, List.find?_cons, h]
      exact ih

/-- C9 (implicit): for every entity type name `T`, both loaders select the
first file of the files list whose path string merely ends with `T.ndjson`
(Python `str.endswith`): the selection equals a first-match search on the
`T.ndjson` suffix, a path of the shape `<anything>T.ndjson` — e.g.
`XT.ndjson` for type `T` — satisfies the match, and when several files
match, the one loaded is determined solely by list order (the first match
wins). -/
theorem file_selection_by_suffix (files : List NdFile) (t x : String) (f : NdFile)
    (hf : pathEndsWith f.path (t ++ ".ndjson") = true) :
    selectFile files t = files.find? (fun g => pathEndsWith g.path (t ++ ".ndjson")) ∧
    pathEndsWith (x ++ (t ++ ".ndjson")) (t ++ ".ndjson") = true ∧
    selectFile (f :: files) t = some f := by
  refine ⟨selectFile_eq_find? files t, ?_, ?_⟩
  · simp [pathEndsWith, String.data_append, List.isSuffixOf_iff_suffix]
  · simp [selectFile, List.filter_cons, hf]

/-- Witness for C9: a file named `XT.ndjson` is selected for entity type `T`,
ahead of a later exact match. -/
theorem file_selection_by_suffix_witness :
    selectFile [(⟨"T.ndjson", []⟩ : NdFile)] "T" =
        [(⟨"T.ndjson", []⟩ : NdFile)].find?
          (fun g => pathEndsWith g.path ("T" ++ ".ndjson")) ∧
      pathEndsWith ("X" ++ ("T" ++ ".ndjson")) ("T" ++ ".ndjson") = true ∧
      selectFile ((⟨"XT.ndjson", []⟩ : NdFile) :: [⟨"T.ndjson", []⟩]) "T" =
        some ⟨"XT.ndjson", []⟩ :=
  file_selection_by_suffix [⟨"T.ndjson", []⟩] "T" "X" ⟨"XT.ndjson", []⟩ (by decide)

theorem chunkList_singleton {α : Type} (n : Nat) (hn : n ≠ 0) (x : α) :
    chunkList n [x] = [[x]] := by
  show chunkListAux 1 n [x] = [[x]]
  rw [chunkListAux, if_neg hn]
  have h1 : [x].take n = [x] := List.take_of_length_le (by simp; omega)
  have h2 : [x].drop n = [] := List.drop_of_length_le (by simp; omega)
  rw [h1, h2]
  rfl

/-- C10 (implicit): the props stored by the vertex loader for a record equal
the record's object with the single key `project_id` set to
`<program>-<project>` (the `project_id` built by `meta_upload`): every other
key/value is carried through unchanged, and any `project_id` already present
in the input object is silently overwritten. -/
theorem project_id_injection (files : List NdFile) (mapping : List MapEntry)
    (e program project : String) (f : NdFile) (rec : VertexRecord) (tn : String)
    (ts : Nat) (db : DB)
    (hsel : selectFile files e = some f) (hrecs : f.records = [rec])
    (htn : vertexTableName mapping e = some tn) :
    lookupA ((loadVertices files [e] (program ++ "-" ++ project) mapping ts db).vtables tn) rec.id =
      some ⟨setKey rec.object "project_id" (Json.str (program ++ "-" ++ project)), ts⟩ ∧
    (∀ k, k ≠ "project_id" →
      lookupA (setKey rec.object "project_id" (Json.str (program ++ "-" ++ project))) k =
        lookupA rec.object k) ∧
    lookupA (setKey rec.object "project_id" (Json.str (program ++ "-" ++ project))) "project_id" =
      some (Json.str (program ++ "-" ++ project)) := by
  refine ⟨?_, ?_, ?_⟩
  · have hplan : vertexPlan files [e] (program ++ "-" ++ project) mapping =
        [(tn, rec.id, setKey rec.object "project_id" (Json.str (program ++ "-" ++ project)))] := by
      rw [vertexPlan]
      simp only [List.flatMap_cons, List.flatMap_nil, List.append_nil, hsel, htn, hrecs]
      rw [chunkList_singleton 1000 (by omega) rec]
      simp
    rw [loadVertices, hplan]
    simp only [List.map_cons, List.map_nil]
    rw [applyRows_cons]
    show lookupA
      ((applyRows (fun n => if n = tn then upsertA (db.vtables n) rec.id _ else db.vtables n) []) tn)
      rec.id = _
    rw [applyRows]
    simp only [List.foldl_nil, if_pos rfl]
    exact lookupA_upsertA_self _ _ _
  · intro k hk
    rw [setKey]
    exact lookupA_upsertA_ne _ _ _ _ hk
  · rw [setKey]
    exact lookupA_upsertA_self _ _ _

/-- Witness for C10: loading the Patient fixture stores its object with
`project_id = "prog-proj"` appended, other keys unchanged. -/
theorem project_id_injection_witness :
    lookupA ((loadVertices [patientFile] ["Patient"] ("prog" ++ "-" ++ "proj") demoMapping 7
        emptyDB).vtables "node_patient") patientRec.id =
      some ⟨setKey patientRec.object "project_id" (Json.str ("prog" ++ "-" ++ "proj")), 7⟩ ∧
    (∀ k, k ≠ "project_id" →
      lookupA (setKey patientRec.object "project_id" (Json.str ("prog" ++ "-" ++ "proj"))) k =
        lookupA patientRec.object k) ∧
    lookupA (setKey patientRec.object "project_id" (Json.str ("prog" ++ "-" ++ "proj")))
        "project_id" =
      some (Json.str ("prog" ++ "-" ++ "proj")) :=
  project_id_injection [patientFile] demoMapping "Patient" "prog" "proj" patientFile
    patientRec "node_patient" 7 emptyDB rfl rfl (by decide)

theorem filter_of_any_eq_false (acc : List Relation) (d : String)
    (h : acc.any (fun w => w.dst_id = d) = false) :
    acc.filter (fun w => w.dst_id = d) = [] := by
  rw [List.filter_eq_nil_iff]
  intro a ha hp
  simp only [List.any_eq_false, decide_eq_true_eq] at h
  exact h a ha (by simpa using hp)

theorem map_replace_filter_eq_nil (acc : List Relation) (v : Relation)
    (h : acc.filter (fun w => w.dst_id = v.dst_id) = []) :
    (acc.map (fun w => if w.dst_id = v.dst_id then v else w)).filter
      (fun w => w.dst_id = v.dst_id) = [] := by
  induction acc with
  | nil => rfl
  | cons w acc ih =>
    by_cases hw : w.dst_id = v.dst_id
    · rw [List.filter_cons_of_pos (by simpa using hw)] at h
      exact absurd h (by simp)
    · rw [List.filter_cons_of_neg (by simpa using hw)] at h
      rw [List.map_cons, if_neg hw, List.filter_cons_of_neg (by simpa using hw)]
      exact ih h

theorem map_replace_filter_same (acc : List Relation) (v : Relation)
    (hany : acc.any (fun w => w.dst_id = v.dst_id) = true)
    (hinv : (acc.filter (fun w => w.dst_id = v.dst_id)).length ≤ 1) :
    (acc.map (fun w => if w.dst_id = v.dst_id then v else w)).filter
      (fun w => w.dst_id = v.dst_id) = [v] := by
  induction acc with
  | nil => simp at hany
  | cons w acc ih =>
    by_cases hw : w.dst_id = v.dst_id
    · rw [List.filter_cons_of_pos (by simpa using hw)] at hinv
      have htail : acc.filter (fun w => w.dst_id = v.dst_id) = [] := by
        apply List.eq_nil_of_length_eq_zero
        simp only [List.length_cons] at hinv
        omega
      rw [List.map_cons, if_pos hw, List.filter_cons_of_pos (by simp)]
      rw [map_replace_filter_eq_nil acc v htail]
    · rw [List.map_cons, if_neg hw, List.filter_cons_of_neg (by simpa using hw)]
      have hany' : acc.any (fun w => w.dst_id = v.dst_id) = true := by
        rcases List.any_eq_true.mp hany with ⟨x, hx, hpx⟩
        rcases List.mem_cons.mp hx with h1 | h1
        · exact absurd (by simpa using hpx : x.dst_id = v.dst_id) (h1 ▸ hw)
        · exact List.any_eq_true.mpr ⟨x, h1, hpx⟩
      have hinv' : (acc.filter (fun w => w.dst_id = v.dst_id)).length ≤ 1 := by
        rwa [List.filter_cons_of_neg (by simpa using hw)] at hinv
      exact ih hany' hinv'

theorem map_replace_filter_other (acc : List Relation) (v : Relation) (d : String)
    (hd : v.dst_id ≠ d) :
    (acc.map (fun w => if w.dst_id = v.dst_id then v else w)).filter
      (fun w => w.dst_id = d) = acc.filter (fun w => w.dst_id = d) := by
  induction acc with
  | nil => rfl
  | cons w acc ih =>
    by_cases hw : w.dst_id = v.dst_id
    · rw [List.map_cons, if_pos hw]
      have h1 : ¬ (v.dst_id = d) := hd
      have h2 : ¬ (w.dst_id = d) := by rw [hw]; exact hd
      rw [List.filter_cons_of_neg (by simpa using h1),
        List.filter_cons_of_neg (by simpa using h2)]
      exact ih
    · rw [List.map_cons, if_neg hw]
      by_cases hwd : w.dst_id = d
      · rw [List.filter_cons_of_pos (by simpa using hwd),
          List.filter_cons_of_pos (by simpa using hwd), ih]
      · rw [List.filter_cons_of_neg (by simpa using hwd),
          List.filter_cons_of_neg (by simpa using hwd), ih]

theorem dictStep_filter (acc : List Relation) (v : Relation) (d : String)
    (hinv : (acc.filter (fun w => w.dst_id = d)).length ≤ 1) :
    ((if acc.any (fun w => w.dst_id = v.dst_id) then
        acc.map (fun w => if w.dst_id = v.dst_id then v else w)
      else acc ++ [v]).filter (fun w => w.dst_id = d)) =
      if v.dst_id = d then [v] else acc.filter (fun w => w.dst_id = d) := by
  by_cases hany : acc.any (fun w => w.dst_id = v.dst_id) = true
  · rw [if_pos hany]
    by_cases hvd : v.dst_id = d
    · rw [if_pos hvd, ← hvd]
      refine map_replace_filter_same acc v hany ?_
      rw [hvd]
      exact hinv
    · rw [if_neg hvd, map_replace_filter_other acc v d hvd]
  · rw [Bool.not_eq_true] at hany
    rw [if_neg (by simp [hany])]
    by_cases hvd : v.dst_id = d
    · rw [if_pos hvd, List.filter_append,
        filter_of_any_eq_false acc d (by rwa [← hvd]),
        List.filter_cons_of_pos (by simpa using hvd)]
      rfl
    · rw [if_neg hvd, List.filter_append,
        List.filter_cons_of_neg (by simpa using hvd)]
      simp

theorem dictFold_filter (d : String) :
    ∀ (rels acc : List Relation),
      (acc.filter (fun w => w.dst_id = d)).length ≤ 1 →
      ((rels.foldl (fun acc v =>
          if acc.any (fun w => w.dst_id = v.dst_id) then
            acc.map (fun w => if w.dst_id = v.dst_id then v else w)
          else acc ++ [v]) acc).filter (fun w => w.dst_id = d)) =
        (match rels.reverse.find? (fun w => w.dst_id = d) with
          | some v => [v]
          | none => acc.filter (fun w => w.dst_id = d)) := by
  intro rels
  induction rels with
  | nil =>
    intro acc hinv
    simp
  | cons v rels ih =>
    intro acc hinv
    have hstep := dictStep_filter acc v d hinv
    have hinv' : (((if acc.any (fun w => w.dst_id = v.dst_id) then
        acc.map (fun w => if w.dst_id = v.dst_id then v else w)
      else acc ++ [v]) : List Relation).filter (fun w => w.dst_id = d)).length ≤ 1 := by
      rw [hstep]
      by_cases hvd : v.dst_id = d
      · rw [if_pos hvd]
        simp
      · rw [if_neg hvd]
        exact hinv
    rw [List.foldl_cons, ih _ hinv', List.reverse_cons, List.find?_append]
    cases hf : rels.reverse.find? (fun w => w.dst_id = d) with
    | some w => simp
    | none =>
      simp only [Option.none_or]
      rw [hstep]
      by_cases hvd : v.dst_id = d
      · rw [if_pos hvd, List.find?_cons_of_pos _ (by simpa using hvd)]
      · rw [if_neg hvd, List.find?_cons_of_neg _ (by simpa using hvd)]
        rfl

theorem dictDedup_filter (rels : List Relation) (d : String) :
    (dictDedup rels).filter (fun w => w.dst_id = d) =
      (match rels.reverse.find? (fun w => w.dst_id = d) with
        | some v => [v]
        | none => []) := by
  have h := dictFold_filter d rels [] (by simp)
  simpa [dictDedup] using h

theorem loadEdges_etables (files : List NdFile) (dep : List String)
    (mapping : List MapEntry) (projId : String) (ts : Nat) (st : LoadState) :
    (loadEdges files dep mapping projId ts st).db.etables =
      applyRows st.db.etables (erowsOf ts (loadEdgesActs files dep mapping projId)) :=
  applyActs_etables ts st _

theorem row_act_mem_loadEdgesActs
    (files : List NdFile) (dep : List String) (mapping : List MapEntry)
    (projId e : String) (f : NdFile) (rec : VertexRecord) (v : Relation) (m : MapEntry)
    (he : e ∈ dep) (hsel : selectFile files e = some f) (hrec : rec ∈ f.records)
    (hv : v ∈ effectiveRelations projId rec)
    (hmap : mapping.find? (fun mm => mm.srcclass = e ∧ mm.dstclass = camelize v.dst_name) =
      some m) :
    Act.row m.tablename rec.id v.dst_id ∈ loadEdgesActs files dep mapping projId := by
  rw [loadEdgesActs]
  refine List.mem_flatMap.mpr ⟨e, he, ?_⟩
  rw [entityActions, hsel]
  have hrec' : rec ∈ (chunkList 100 f.records).flatten := by
    rw [chunkList_flatten 100 (by omega)]
    exact hrec
  rcases List.mem_flatten.mp hrec' with ⟨ch, hch, hrecch⟩
  refine List.mem_flatMap.mpr ⟨ch, hch, ?_⟩
  refine List.mem_flatMap.mpr ⟨rec, hrecch, ?_⟩
  have hne : effectiveRelations projId rec ≠ [] := by
    intro hh
    rw [hh] at hv
    exact absurd hv (List.not_mem_nil v)
  simp only [recordActions, if_neg hne]
  refine List.mem_flatMap.mpr ⟨v, hv, ?_⟩
  simp only [relActions, hmap]
  exact List.mem_singleton.mpr rfl

/-- C2: for a vertex record processed by the edge loader whose `relations`
list has two or more entries with the same `dst_id` (even under different
labels), the deduplication keeps exactly the last occurrence `v` in list
order, and afterwards exactly one edge row exists for the `(src_id, dst_id)`
pair in the edge table the kept relation maps to. -/
theorem relation_dedup_last_wins
    (files : List NdFile) (mapping : List MapEntry) (projNodeId e : String)
    (f : NdFile) (rec : VertexRecord) (d : String) (v : Relation) (m : MapEntry)
    (ts : Nat) (st : LoadState)
    (hsel : selectFile files e = some f) (hrec : rec ∈ f.records)
    (hdup : 2 ≤ rec.relations.countP (fun w => w.dst_id = d))
    (hlast : rec.relations.reverse.find? (fun w => w.dst_id = d) = some v)
    (hmap : mapping.find? (fun mm => mm.srcclass = e ∧ mm.dstclass = camelize v.dst_name) =
      some m)
    (hsafe : (rec.name = "ResearchStudy" ∨ rec.name = "research_study") → projNodeId ≠ d)
    (hwfe : ∀ tn, ((st.db.etables tn).map Prod.fst).Nodup) :
    (dictDedup rec.relations).filter (fun w => w.dst_id = d) = [v] ∧
    ((loadEdges files [e] mapping projNodeId ts st).db.etables m.tablename).countP
      (fun kv => kv.1 = (rec.id, d)) = 1 := by
  clear hdup hsafe
  have hvd : v.dst_id = d := by
    have h := List.find?_some hlast
    simpa using h
  have hfilter : (dictDedup rec.relations).filter (fun w => w.dst_id = d) = [v] := by
    rw [dictDedup_filter, hlast]
  refine ⟨hfilter, ?_⟩
  have hvmem : v ∈ dictDedup rec.relations :=
    List.mem_of_mem_filter (hfilter ▸ List.mem_singleton.mpr rfl)
  have hveff : v ∈ effectiveRelations projNodeId rec := by
    rw [effectiveRelations]
    by_cases hn : rec.name = "ResearchStudy" ∨ rec.name = "research_study"
    · rw [if_pos hn]
      exact List.mem_append_left _ hvmem
    · rwa [if_neg hn]
  have hact := row_act_mem_loadEdgesActs files [e] mapping projNodeId e f rec v m
    (List.mem_singleton.mpr rfl) hsel hrec hveff hmap
  have herow : (m.tablename, (rec.id, v.dst_id), ts) ∈
      erowsOf ts (loadEdgesActs files [e] mapping projNodeId) :=
    List.mem_filterMap.mpr ⟨Act.row m.tablename rec.id v.dst_id, hact, rfl⟩
  have hkey := mem_keys_applyRows_of_mem_rows st.db.etables
    (erowsOf ts (loadEdgesActs files [e] mapping projNodeId)) _ herow
  rw [loadEdges_etables]
  refine count_key_eq_one _ _ ?_ ?_
  · rw [← hvd]
    exact hkey
  · exact nodup_keys_applyRows _ _ hwfe _

/-- Witness for C2: the Observation fixture with two relations to `p1`
under labels `labelA`/`labelB` keeps the `labelB` one and stores exactly one
row keyed `(o2, p1)` in the Observation–Patient edge table. -/
theorem relation_dedup_last_wins_witness :
    (dictDedup obsDupRec.relations).filter (fun w => w.dst_id = "p1") =
        [⟨"p1", "Patient", "labelB"⟩] ∧
      ((loadEdges [obsDupFile] ["Observation"] demoMapping "proj-node-1" 3
          initState).db.etables "edge_observation_patient").countP
        (fun kv => kv.1 = (obsDupRec.id, "p1")) = 1 :=
  relation_dedup_last_wins [obsDupFile] demoMapping "proj-node-1" "Observation"
    obsDupFile obsDupRec "p1" ⟨"p1", "Patient", "labelB"⟩
    ⟨"Observation", "Patient", "node_observation", "node_patient",
      "edge_observation_patient", "subject"⟩ 3 initState
    rfl (List.mem_singleton.mpr rfl) (by decide) (by decide) (by decide)
    (fun h => absurd h (by decide)) (fun _ => List.nodup_nil)

theorem entityActions_some (files : List NdFile) (dep : List String)
    (mapping : List MapEntry) (projId e : String) (f : NdFile)
    (hsel : selectFile files e = some f) :
    entityActions files dep mapping projId e =
      (chunkList 100 f.records).flatMap
        (fun ch => ch.flatMap (recordActions dep mapping projId e)) := by
  rw [entityActions, hsel]

/-- C3: for every vertex record whose `name` is one of the two spellings the
source accepts for the ResearchStudy type (`ResearchStudy` / `research_study`,
i.e. the camel-case and underscore case/spacing normal forms), the edge
loader appends, after deduplication, the one synthetic relation
`{dst_id: project_node_id, dst_name: "Project", label: "project"}`; in
particular a ResearchStudy record with an empty relations list still yields
exactly one edge row linking the study's id to the bootstrapped project node
id in the mapped study–project edge table. -/
theorem research_study_project_link
    (files : List NdFile) (mapping : List MapEntry) (projNodeId e : String)
    (f : NdFile) (rec : VertexRecord) (m : MapEntry) (ts : Nat) (st : LoadState)
    (hname : rec.name = "ResearchStudy" ∨ rec.name = "research_study")
    (hsel : selectFile files e = some f) (hrecs : f.records = [rec])
    (hrels : rec.relations = [])
    (hmap : mapping.find? (fun mm => mm.srcclass = e ∧ mm.dstclass = camelize "Project") =
      some m)
    (hempty : st.db.etables m.tablename = []) :
    (∀ rec' : VertexRecord, (rec'.name = "ResearchStudy" ∨ rec'.name = "research_study") →
      effectiveRelations projNodeId rec' =
        dictDedup rec'.relations ++ [⟨projNodeId, "Project", "project"⟩]) ∧
    (loadEdges files [e] mapping projNodeId ts st).db.etables m.tablename =
      [((rec.id, projNodeId), ts)] := by
  constructor
  · intro rec' h
    rw [effectiveRelations, if_pos h]
  · have heff : effectiveRelations projNodeId rec = [⟨projNodeId, "Project", "project"⟩] := by
      rw [effectiveRelations, if_pos hname, hrels]
      rfl
    have hacts : loadEdgesActs files [e] mapping projNodeId =
        [Act.row m.tablename rec.id projNodeId] := by
      rw [loadEdgesActs]
      simp only [List.flatMap_cons, List.flatMap_nil, List.append_nil]
      rw [entityActions_some files [e] mapping projNodeId e f hsel, hrecs,
        chunkList_singleton 100 (by omega)]
      simp only [List.flatMap_cons, List.flatMap_nil, List.append_nil]
      simp only [recordActions, heff]
      rw [if_neg (by intro hh; exact absurd hh (by simp))]
      simp only [List.flatMap_cons, List.flatMap_nil, List.append_nil]
      simp only [relActions, hmap]
    rw [loadEdges_etables, hacts]
    have herows : erowsOf ts [Act.row m.tablename rec.id projNodeId] =
        [(m.tablename, (rec.id, projNodeId), ts)] := rfl
    rw [herows, applyRows_cons]
    show (applyRows _ []) m.tablename = _
    rw [applyRows]
    simp only [List.foldl_nil, if_pos rfl, hempty]
    rfl

/-- Witness for C3: the ResearchStudy fixture with no relations yields the
single row `((rs1, proj-node-1), ts)` in the study–project edge table. -/
theorem research_study_project_link_witness :
    (∀ rec' : VertexRecord, (rec'.name = "ResearchStudy" ∨ rec'.name = "research_study") →
      effectiveRelations "proj-node-1" rec' =
        dictDedup rec'.relations ++ [⟨"proj-node-1", "Project", "project"⟩]) ∧
    (loadEdges [rsFile] ["ResearchStudy"] rsMapping "proj-node-1" 5
        initState).db.etables "edge_researchstudyprojectmember" =
      [((rsRec.id, "proj-node-1"), 5)] :=
  research_study_project_link [rsFile] rsMapping "proj-node-1" "ResearchStudy"
    rsFile rsRec
    ⟨"ResearchStudy", "Project", "node_researchstudy", "node_project",
      "edge_researchstudyprojectmember", "project"⟩ 5 initState
    (Or.inl rfl) rfl rfl rfl (by decide) rfl

theorem logged_mono (ts : Nat) (st : LoadState) (acts : List Act) (m : String)
    (h : m ∈ st.logged) : m ∈ (applyActs ts st acts).logged := by
  induction acts generalizing st with
  | nil => exact h
  | cons a acts ih =>
    rw [applyActs_cons]
    apply ih
    cases a with
    | row tn src dst => exact h
    | warnOnce msg =>
      by_cases hm : msg ∈ st.logged
      · simpa [applyAct, hm] using h
      · simp only [applyAct, if_neg hm]
        exact List.mem_append_left _ h
    | printOnce msg =>
      by_cases hm : msg ∈ st.logged
      · simpa [applyAct, hm] using h
      · simp only [applyAct, if_neg hm]
        exact List.mem_append_left _ h
    | warnAlways msg => exact h

theorem count_warns_of_logged (ts : Nat) (st : LoadState) (acts : List Act) (msg : String)
    (hlog : msg ∈ st.logged) (hna : Act.warnAlways msg ∉ acts) :
    (applyActs ts st acts).warns.count msg = st.warns.count msg := by
  induction acts generalizing st with
  | nil => rfl
  | cons a acts ih =>
    rw [applyActs_cons]
    have hna' : Act.warnAlways msg ∉ acts := fun hh => hna (List.mem_cons_of_mem a hh)
    cases a with
    | row tn src dst => exact ih _ hlog hna'
    | warnOnce m =>
      by_cases hm : m ∈ st.logged
      · rw [show applyAct ts st (Act.warnOnce m) = st from by simp [applyAct, hm]]
        exact ih _ hlog hna'
      · have hne : m ≠ msg := fun hh => hm (hh ▸ hlog)
        rw [show applyAct ts st (Act.warnOnce m) =
            { st with logged := st.logged ++ [m], warns := st.warns ++ [m] } from by
          simp [applyAct, hm]]
        rw [ih { st with logged := st.logged ++ [m], warns := st.warns ++ [m] }
          (List.mem_append_left _ hlog) hna']
        simp [List.count_append, List.count_singleton', hne]
    | printOnce m =>
      by_cases hm : m ∈ st.logged
      · rw [show applyAct ts st (Act.printOnce m) = st from by simp [applyAct, hm]]
        exact ih _ hlog hna'
      · rw [show applyAct ts st (Act.printOnce m) =
            { st with logged := st.logged ++ [m] } from by simp [applyAct, hm]]
        exact ih _ (List.mem_append_left _ hlog) hna'
    | warnAlways m =>
      have hne : m ≠ msg := fun hh => hna (hh ▸ List.mem_cons_self _ _)
      rw [show applyAct ts st (Act.warnAlways m) =
          { st with warns := st.warns ++ [m] } from rfl]
      rw [ih { st with warns := st.warns ++ [m] } hlog hna']
      simp [List.count_append, List.count_singleton', hne]

theorem count_warns_of_new (ts : Nat) (st : LoadState) (acts : List Act) (msg : String)
    (hlog : msg ∉ st.logged) (hw : Act.warnOnce msg ∈ acts)
    (hnp : Act.printOnce msg ∉ acts) (hna : Act.warnAlways msg ∉ acts) :
    (applyActs ts st acts).warns.count msg = st.warns.count msg + 1 := by
  induction acts generalizing st with
  | nil => cases hw
  | cons a acts ih =>
    rw [applyActs_cons]
    have hnp' : Act.printOnce msg ∉ acts := fun hh => hnp (List.mem_cons_of_mem a hh)
    have hna' : Act.warnAlways msg ∉ acts := fun hh => hna (List.mem_cons_of_mem a hh)
    by_cases ha : a = Act.warnOnce msg
    · subst ha
      rw [show applyAct ts st (Act.warnOnce msg) =
          { st with logged := st.logged ++ [msg], warns := st.warns ++ [msg] } from by
        simp [applyAct, hlog]]
      rw [count_warns_of_logged ts _ acts msg
        (List.mem_append_right _ (List.mem_singleton.mpr rfl)) hna']
      simp [List.count_append, List.count_singleton']
    · have hw' : Act.warnOnce msg ∈ acts := by
        rcases List.mem_cons.mp hw with h1 | h1
        · exact absurd h1.symm ha
        · exact h1
      cases a with
      | row tn src dst => exact ih _ hlog hw' hnp' hna'
      | warnOnce m =>
        have hne : m ≠ msg := fun hh => ha (by rw [hh])
        by_cases hm : m ∈ st.logged
        · rw [show applyAct ts st (Act.warnOnce m) = st from by simp [applyAct, hm]]
          exact ih _ hlog hw' hnp' hna'
        · rw [show applyAct ts st (Act.warnOnce m) =
              { st with logged := st.logged ++ [m], warns := st.warns ++ [m] } from by
            simp [applyAct, hm]]
          rw [ih { st with logged := st.logged ++ [m], warns := st.warns ++ [m] }
            (by
              intro hh
              rcases List.mem_append.mp hh with h1 | h1
              · exact hlog h1
              · exact hne (List.mem_singleton.mp h1).symm)
            hw' hnp' hna']
          simp [List.count_append, List.count_singleton', hne]
      | printOnce m =>
        have hne : m ≠ msg := fun hh => hnp (hh ▸ List.mem_cons_self _ _)
        by_cases hm : m ∈ st.logged
        · rw [show applyAct ts st (Act.printOnce m) = st from by simp [applyAct, hm]]
          exact ih _ hlog hw' hnp' hna'
        · rw [show applyAct ts st (Act.printOnce m) =
              { st with logged := st.logged ++ [m] } from by simp [applyAct, hm]]
          exact ih _
            (by
              intro hh
              rcases List.mem_append.mp hh with h1 | h1
              · exact hlog h1
              · exact hne (List.mem_singleton.mp h1).symm)
            hw' hnp' hna'
      | warnAlways m =>
        have hne : m ≠ msg := fun hh => hna (hh ▸ List.mem_cons_self _ _)
        rw [show applyAct ts st (Act.warnAlways m) =
            { st with warns := st.warns ++ [m] } from rfl]
        rw [ih { st with warns := st.warns ++ [m] } hlog hw' hnp' hna']
        simp [List.count_append, List.count_singleton', hne]

theorem warn_act_mem_loadEdgesActs
    (files : List NdFile) (dep : List String) (mapping : List MapEntry)
    (projId e d : String) (f : NdFile) (rec : VertexRecord) (v : Relation)
    (he : e ∈ dep) (hsel : selectFile files e = some f) (hrec : rec ∈ f.records)
    (hv : v ∈ effectiveRelations projId rec) (hvd : v.dst_name = d)
    (hmiss : mapping.find? (fun mm => mm.srcclass = e ∧ mm.dstclass = camelize d) = none)
    (hd : d ∈ dep) :
    Act.warnOnce (noMappingMsg e d) ∈ loadEdgesActs files dep mapping projId := by
  rw [loadEdgesActs]
  refine List.mem_flatMap.mpr ⟨e, he, ?_⟩
  rw [entityActions_some files dep mapping projId e f hsel]
  have hrec' : rec ∈ (chunkList 100 f.records).flatten := by
    rw [chunkList_flatten 100 (by omega)]
    exact hrec
  rcases List.mem_flatten.mp hrec' with ⟨ch, hch, hrecch⟩
  refine List.mem_flatMap.mpr ⟨ch, hch, ?_⟩
  refine List.mem_flatMap.mpr ⟨rec, hrecch, ?_⟩
  have hne : effectiveRelations projId rec ≠ [] := by
    intro hh
    rw [hh] at hv
    exact absurd hv (List.not_mem_nil v)
  simp only [recordActions, if_neg hne]
  refine List.mem_flatMap.mpr ⟨v, hv, ?_⟩
  rw [relActions, hvd, hmiss, if_pos hd]
  exact List.mem_singleton.mpr rfl

/-- C6: for a `(src_type, dst_type)` pair with no schema-mapping entry while
the destination type is in the dependency order, the relation is skipped
(its processing emits a single gated warning action and stages no row), the
load completes, and the warning `No mapping for src .. dst ..` is emitted
through `logger.warning` exactly once during the load, no matter how many
records carry a relation with that pair.  The two non-membership hypotheses
rule out unrelated actions that happen to carry the same message text
(distinct pairs collide only when an entity name itself contains `" dst "`). -/
theorem unmapped_assoc_warned_once
    (files : List NdFile) (dep : List String) (mapping : List MapEntry)
    (projId e d : String) (f : NdFile) (rec : VertexRecord) (v : Relation)
    (ts : Nat) (st : LoadState)
    (he : e ∈ dep) (hsel : selectFile files e = some f) (hrec : rec ∈ f.records)
    (hv : v ∈ effectiveRelations projId rec) (hvd : v.dst_name = d)
    (hmiss : mapping.find? (fun mm => mm.srcclass = e ∧ mm.dstclass = camelize d) = none)
    (hd : d ∈ dep)
    (hlog : noMappingMsg e d ∉ st.logged) (hwarns : st.warns = [])
    (hnp : Act.printOnce (noMappingMsg e d) ∉ loadEdgesActs files dep mapping projId)
    (hna : Act.warnAlways (noMappingMsg e d) ∉ loadEdgesActs files dep mapping projId) :
    relActions dep mapping e rec.id v = [Act.warnOnce (noMappingMsg e d)] ∧
    (loadEdges files dep mapping projId ts st).warns.count (noMappingMsg e d) = 1 := by
  constructor
  · rw [relActions, hvd, hmiss, if_pos hd]
  · have hw := warn_act_mem_loadEdgesActs files dep mapping projId e d f rec v
      he hsel hrec hv hvd hmiss hd
    rw [loadEdges]
    rw [count_warns_of_new ts st _ _ hlog hw hnp hna, hwarns]
    rfl

/-- Witness for C6: with an empty mapping, the Observation fixture's relation
to Patient (present in the dependency order) yields the warning exactly once. -/
theorem unmapped_assoc_warned_once_witness :
    relActions ["Observation", "Patient"] [] "Observation" obsRec.id
        ⟨"p1", "Patient", "subject"⟩ =
      [Act.warnOnce (noMappingMsg "Observation" "Patient")] ∧
    (loadEdges [obsFile] ["Observation", "Patient"] [] "proj-node-1" 4
        initState).warns.count (noMappingMsg "Observation" "Patient") = 1 :=
  unmapped_assoc_warned_once [obsFile] ["Observation", "Patient"] [] "proj-node-1"
    "Observation" "Patient" obsFile obsRec ⟨"p1", "Patient", "subject"⟩ 4 initState
    (by decide) rfl (List.mem_singleton.mpr rfl) (by decide) rfl rfl (by decide)
    (List.not_mem_nil _) rfl (by decide) (by decide)

section InsertLemmas

variable {K V : Type} [DecidableEq K]

theorem insertIfAbsentA_of_mem (t : List (K × V)) (k : K) (v : V)
    (h : k ∈ t.map Prod.fst) : insertIfAbsentA t k v = t := by
  rw [insertIfAbsentA, if_pos ((any_key_iff t k).mpr h)]

theorem insertIfAbsentA_of_not_mem (t : List (K × V)) (k : K) (v : V)
    (h : k ∉ t.map Prod.fst) : insertIfAbsentA t k v = t ++ [(k, v)] := by
  rw [insertIfAbsentA, if_neg (fun hh => h ((any_key_iff t k).mp hh))]

theorem mem_keys_insertIfAbsentA (t : List (K × V)) (k : K) (v : V) :
    k ∈ (insertIfAbsentA t k v).map Prod.fst := by
  by_cases h : k ∈ t.map Prod.fst
  · rwa [insertIfAbsentA_of_mem t k v h]
  · rw [insertIfAbsentA_of_not_mem t k v h]
    simp

theorem lookupA_insertIfAbsentA_of_some (t : List (K × V)) (k k' : K) (v r : V)
    (h : lookupA t k' = some r) : lookupA (insertIfAbsentA t k v) k' = some r := by
  by_cases hk : k ∈ t.map Prod.fst
  · rwa [insertIfAbsentA_of_mem t k v hk]
  · rw [insertIfAbsentA_of_not_mem t k v hk, lookupA_append, h]
    rfl

theorem lookupA_of_not_mem_keys (t : List (K × V)) (k : K)
    (h : k ∉ t.map Prod.fst) : lookupA t k = none := by
  cases hl : lookupA t k with
  | none => rfl
  | some v => exact absurd ((lookupA_isSome_iff t k).mp (by rw [hl]; rfl)) h

theorem lookupA_insertIfAbsentA_self_of_not_mem (t : List (K × V)) (k : K) (v : V)
    (h : k ∉ t.map Prod.fst) : lookupA (insertIfAbsentA t k v) k = some v := by
  rw [insertIfAbsentA_of_not_mem t k v h, lookupA_append, lookupA_of_not_mem_keys t k h]
  simp [lookupA_cons]

end InsertLemmas

theorem setV_vtables_self (db : DB) (n : String) (t : VTable) :
    (db.setV n t).vtables n = t := by
  simp [DB.setV]

theorem setV_vtables_other (db : DB) (n : String) (t : VTable) (m : String) (h : m ≠ n) :
    (db.setV n t).vtables m = db.vtables m := by
  simp [DB.setV, h]

theorem setV_etables (db : DB) (n : String) (t : VTable) :
    (db.setV n t).etables = db.etables := rfl

theorem setE_vtables (db : DB) (n : String) (t : ETable) :
    (db.setE n t).vtables = db.vtables := rfl

theorem setE_etables_self (db : DB) (n : String) (t : ETable) :
    (db.setE n t).etables n = t := by
  simp [DB.setE]

theorem setE_etables_other (db : DB) (n : String) (t : ETable) (m : String) (h : m ≠ n) :
    (db.setE n t).etables m = db.etables m := by
  simp [DB.setE, h]

theorem setV_same (db : DB) (n : String) : db.setV n (db.vtables n) = db := by
  cases db with
  | mk vt et =>
    simp only [DB.setV]
    congr 1
    funext m
    by_cases hm : m = n
    · rw [if_pos hm, hm]
    · rw [if_neg hm]

theorem setE_same (db : DB) (n : String) : db.setE n (db.etables n) = db := by
  cases db with
  | mk vt et =>
    simp only [DB.setE]
    congr 1
    funext m
    by_cases hm : m = n
    · rw [if_pos hm, hm]
    · rw [if_neg hm]

theorem propsNameIs_programProps (p : String) :
    propsNameIs (programProps p) p = true := by
  simp [propsNameIs, programProps, lookupA]

theorem propsCodeIs_projectProps (j : String) :
    propsCodeIs (projectProps j) j = true := by
  simp [propsCodeIs, projectProps, lookupA]

theorem programPhase_of_some (db : DB) (p : String) (ts : Nat) (kv : String × VRow)
    (h : progLookup db p = some kv) : programPhase db p ts = (db, kv.1) := by
  rw [programPhase, h]

theorem programPhase_of_none (db : DB) (p : String) (ts : Nat)
    (h : progLookup db p = none) :
    programPhase db p ts =
      (db.setV "node_program"
        (insertIfAbsentA (db.vtables "node_program") (uuid5 PROGRAM_SEED p)
          ⟨programProps p, ts⟩),
       uuid5 PROGRAM_SEED p) := by
  rw [programPhase, h]

theorem programPhase_stable_on (db db' : DB) (p : String) (ts ts' : Nat)
    (hsame : db'.vtables "node_program" = (programPhase db p ts).1.vtables "node_program") :
    programPhase db' p ts' = (db', (programPhase db p ts).2) := by
  cases h : progLookup db p with
  | some kv =>
    rw [programPhase_of_some db p ts kv h] at hsame ⊢
    have h' : progLookup db' p = some kv := by
      rw [progLookup, hsame]
      exact h
    rw [programPhase_of_some db' p ts' kv h']
  | none =>
    rw [programPhase_of_none db p ts h] at hsame ⊢
    rw [setV_vtables_self] at hsame
    rw [progLookup] at h
    by_cases hk : uuid5 PROGRAM_SEED p ∈ (db.vtables "node_program").map Prod.fst
    · rw [insertIfAbsentA_of_mem _ _ _ hk] at hsame
      have h' : progLookup db' p = none := by
        rw [progLookup, hsame]
        exact h
      rw [programPhase_of_none db' p ts' h']
      rw [hsame, insertIfAbsentA_of_mem _ _ _ hk, ← hsame, setV_same]
    · rw [insertIfAbsentA_of_not_mem _ _ _ hk] at hsame
      have h' : progLookup db' p =
          some (uuid5 PROGRAM_SEED p, ⟨programProps p, ts⟩) := by
        rw [progLookup, hsame, List.find?_append, h]
        simp [List.find?_cons, propsNameIs_programProps]
      rw [programPhase_of_some db' p ts' _ h']

theorem ensureProject_of_some (db : DB) (p j : String) (ts : Nat) (pid : String)
    (h : projQuery (programPhase db p ts).1 p j = some pid) :
    ensureProject db p j ts =
      ⟨(programPhase db p ts).1, none, (programPhase db p ts).2, pid⟩ := by
  rw [ensureProject, h]

theorem ensureProject_of_none (db : DB) (p j : String) (ts : Nat)
    (h : projQuery (programPhase db p ts).1 p j = none) :
    ensureProject db p j ts =
      ⟨((programPhase db p ts).1.setV "node_project"
          (insertIfAbsentA ((programPhase db p ts).1.vtables "node_project")
            (uuid5 PROJECT_SEED j) ⟨projectProps j, ts⟩)).setE
          "edge_projectmemberofprogram"
          (insertIfAbsentA ((programPhase db p ts).1.etables "edge_projectmemberofprogram")
            (uuid5 PROJECT_SEED j, (programPhase db p ts).2) ts),
        none, (programPhase db p ts).2, uuid5 PROJECT_SEED j⟩ := by
  rw [ensureProject, h]
  rfl

theorem bootstrapped_db_node_program (A : DB) (t : VTable) (e : ETable) :
    ((A.setV "node_project" t).setE "edge_projectmemberofprogram" e).vtables
      "node_program" = A.vtables "node_program" := by
  rw [setE_vtables, setV_vtables_other]
  decide

theorem projQuery_after_insert (A : DB) (p j g : String) (ts : Nat) (pid2 : String)
    (hq1 : projQuery A p j = none)
    (hq2 : projQuery
      ((A.setV "node_project"
          (insertIfAbsentA (A.vtables "node_project") (uuid5 PROJECT_SEED j)
            ⟨projectProps j, ts⟩)).setE "edge_projectmemberofprogram"
          (insertIfAbsentA (A.etables "edge_projectmemberofprogram")
            (uuid5 PROJECT_SEED j, g) ts)) p j = some pid2) :
    pid2 = uuid5 PROJECT_SEED j := by
  set pjid := uuid5 PROJECT_SEED j with hpjid
  set db3 := (A.setV "node_project"
      (insertIfAbsentA (A.vtables "node_project") pjid ⟨projectProps j, ts⟩)).setE
      "edge_projectmemberofprogram"
      (insertIfAbsentA (A.etables "edge_projectmemberofprogram") (pjid, g) ts) with hdb3
  have hsub : subqueryProgId db3 p = subqueryProgId A p := by
    rw [subqueryProgId, subqueryProgId, progLookup, progLookup, hdb3,
      bootstrapped_db_node_program]
  have hrows3 : db3.vtables "node_project" =
      insertIfAbsentA (A.vtables "node_project") pjid ⟨projectProps j, ts⟩ := by
    rw [hdb3, setE_vtables, setV_vtables_self]
  have het3 : db3.etables "edge_projectmemberofprogram" =
      insertIfAbsentA (A.etables "edge_projectmemberofprogram") (pjid, g) ts := by
    rw [hdb3, setE_etables_self]
  rw [projQuery] at hq2
  rcases Option.map_eq_some'.mp hq2 with ⟨r, hfind, hr1⟩
  have hrmem := List.mem_of_find?_eq_some hfind
  have hrpred := List.find?_some hfind
  rw [Bool.and_eq_true] at hrpred
  obtain ⟨hcont, hcode⟩ := hrpred
  by_contra hne
  have hne' : r.1 ≠ pjid := fun hh => hne (hr1 ▸ hh)
  have hrA : r ∈ A.vtables "node_project" := by
    rw [hrows3] at hrmem
    by_cases hk : pjid ∈ (A.vtables "node_project").map Prod.fst
    · rwa [insertIfAbsentA_of_mem _ _ _ hk] at hrmem
    · rw [insertIfAbsentA_of_not_mem _ _ _ hk] at hrmem
      rcases List.mem_append.mp hrmem with h1 | h1
      · exact h1
      · exact absurd (congrArg Prod.fst (List.mem_singleton.mp h1)) hne'
  have hsrcA : r.1 ∈ memberSrcs A p := by
    have hcont' : r.1 ∈ memberSrcs db3 p := by
      have := List.elem_iff.mp hcont
      exact this
    rw [memberSrcs, het3] at hcont'
    rcases List.mem_map.mp hcont' with ⟨edge, hedge, hsrc⟩
    have hedgef := List.mem_filter.mp hedge
    obtain ⟨hedgemem, hedgedst⟩ := hedgef
    have hedgeA : edge ∈ A.etables "edge_projectmemberofprogram" := by
      by_cases hek : (pjid, g) ∈ (A.etables "edge_projectmemberofprogram").map Prod.fst
      · rwa [insertIfAbsentA_of_mem _ _ _ hek] at hedgemem
      · rw [insertIfAbsentA_of_not_mem _ _ _ hek] at hedgemem
        rcases List.mem_append.mp hedgemem with h1 | h1
        · exact h1
        · exfalso
          have hedgeeq := List.mem_singleton.mp h1
          apply hne'
          rw [← hsrc, hedgeeq]
    rw [memberSrcs]
    refine List.mem_map.mpr ⟨edge, ?_, hsrc⟩
    refine List.mem_filter.mpr ⟨hedgeA, ?_⟩
    rw [← hsub]
    exact hedgedst
  have hq1' : (A.vtables "node_project").find?
      (fun kv => (memberSrcs A p).contains kv.1 && propsCodeIs kv.2.props j) = none := by
    rw [projQuery] at hq1
    exact Option.map_eq_none'.mp hq1
  apply List.find?_eq_none.mp hq1' r hrA
  rw [Bool.and_eq_true]
  refine ⟨?_, hcode⟩
  exact List.elem_iff.mpr hsrcA

theorem ensureProject_second_call (db : DB) (p j : String) (ts ts' : Nat) :
    ensureProject (ensureProject db p j ts).db p j ts' =
      ⟨(ensureProject db p j ts).db, none, (ensureProject db p j ts).resolvedProgram,
        (ensureProject db p j ts).resolvedProject⟩ := by
  cases hq : projQuery (programPhase db p ts).1 p j with
  | some pid =>
    rw [ensureProject_of_some db p j ts pid hq]
    have hphase2 : programPhase (programPhase db p ts).1 p ts' =
        ((programPhase db p ts).1, (programPhase db p ts).2) :=
      programPhase_stable_on db _ p ts ts' rfl
    have hq2 : projQuery (programPhase (programPhase db p ts).1 p ts').1 p j = some pid := by
      rw [hphase2]
      exact hq
    rw [ensureProject_of_some _ p j ts' pid hq2, hphase2]
  | none =>
    rw [ensureProject_of_none db p j ts hq]
    set A := (programPhase db p ts).1 with hA
    set g := (programPhase db p ts).2 with hg
    set pjid := uuid5 PROJECT_SEED j with hpjid
    set db3 := (A.setV "node_project"
        (insertIfAbsentA (A.vtables "node_project") pjid ⟨projectProps j, ts⟩)).setE
        "edge_projectmemberofprogram"
        (insertIfAbsentA (A.etables "edge_projectmemberofprogram") (pjid, g) ts) with hdb3
    have hphase2 : programPhase db3 p ts' = (db3, g) := by
      apply programPhase_stable_on db db3 p ts ts'
      rw [hdb3]
      exact bootstrapped_db_node_program A _ _
    have hrows3 : db3.vtables "node_project" =
        insertIfAbsentA (A.vtables "node_project") pjid ⟨projectProps j, ts⟩ := by
      rw [hdb3, setE_vtables, setV_vtables_self]
    have het3 : db3.etables "edge_projectmemberofprogram" =
        insertIfAbsentA (A.etables "edge_projectmemberofprogram") (pjid, g) ts := by
      rw [hdb3, setE_etables_self]
    cases hq2 : projQuery db3 p j with
    | some pid2 =>
      have hpid2 : pid2 = pjid := by
        refine projQuery_after_insert A p j g ts pid2 hq ?_
        exact hq2
      have hq2'' : projQuery (programPhase db3 p ts').1 p j = some pid2 := by
        rw [hphase2]
        exact hq2
      rw [ensureProject_of_some db3 p j ts' pid2 hq2'', hphase2, hpid2]
    | none =>
      have hq2'' : projQuery (programPhase db3 p ts').1 p j = none := by
        rw [hphase2]
        exact hq2
      rw [ensureProject_of_none db3 p j ts' hq2'', hphase2]
      have h1 : insertIfAbsentA (db3.vtables "node_project") pjid
          ⟨projectProps j, ts'⟩ = db3.vtables "node_project" := by
        apply insertIfAbsentA_of_mem
        rw [hrows3]
        exact mem_keys_insertIfAbsentA _ _ _
      rw [h1, setV_same]
      have h2 : insertIfAbsentA (db3.etables "edge_projectmemberofprogram") (pjid, g)
          ts' = db3.etables "edge_projectmemberofprogram" := by
        apply insertIfAbsentA_of_mem
        rw [het3]
        exact mem_keys_insertIfAbsentA _ _ _
      rw [h2, setE_same]

theorem programPhase_tables (db : DB) (p : String) (ts : Nat) :
    (programPhase db p ts).1.etables = db.etables ∧
    (∀ tn, tn ≠ "node_program" → (programPhase db p ts).1.vtables tn = db.vtables tn) ∧
    ((programPhase db p ts).1.vtables "node_program" = db.vtables "node_program" ∨
      (programPhase db p ts).1.vtables "node_program" =
        insertIfAbsentA (db.vtables "node_program") (uuid5 PROGRAM_SEED p)
          ⟨programProps p, ts⟩) := by
  cases h : progLookup db p with
  | some kv =>
    rw [programPhase_of_some db p ts kv h]
    exact ⟨rfl, fun _ _ => rfl, Or.inl rfl⟩
  | none =>
    rw [programPhase_of_none db p ts h]
    exact ⟨setV_etables _ _ _, fun tn htn => setV_vtables_other _ _ _ tn htn,
      Or.inr (setV_vtables_self _ _ _)⟩

theorem ensureProject_db_tables (db : DB) (p j : String) (ts : Nat) :
    ((ensureProject db p j ts).db.vtables "node_program" =
      (programPhase db p ts).1.vtables "node_program") ∧
    ((ensureProject db p j ts).db.vtables "node_project" =
        (programPhase db p ts).1.vtables "node_project" ∨
      (ensureProject db p j ts).db.vtables "node_project" =
        insertIfAbsentA ((programPhase db p ts).1.vtables "node_project")
          (uuid5 PROJECT_SEED j) ⟨projectProps j, ts⟩) ∧
    (∀ tn, tn ≠ "node_program" → tn ≠ "node_project" →
      (ensureProject db p j ts).db.vtables tn = db.vtables tn) ∧
    ((ensureProject db p j ts).db.etables "edge_projectmemberofprogram" =
        db.etables "edge_projectmemberofprogram" ∨
      (ensureProject db p j ts).db.etables "edge_projectmemberofprogram" =
        insertIfAbsentA (db.etables "edge_projectmemberofprogram")
          (uuid5 PROJECT_SEED j, (programPhase db p ts).2) ts) ∧
    (∀ tn, tn ≠ "edge_projectmemberofprogram" →
      (ensureProject db p j ts).db.etables tn = db.etables tn) := by
  obtain ⟨hpe, hpo, hpn⟩ := programPhase_tables db p ts
  cases hq : projQuery (programPhase db p ts).1 p j with
  | some pid =>
    rw [ensureProject_of_some db p j ts pid hq]
    refine ⟨rfl, Or.inl rfl, ?_, ?_, ?_⟩
    · intro tn htn _
      exact hpo tn htn
    · rw [hpe]
      exact Or.inl rfl
    · intro tn _
      rw [hpe]
  | none =>
    rw [ensureProject_of_none db p j ts hq]
    refine ⟨bootstrapped_db_node_program _ _ _, ?_, ?_, ?_, ?_⟩
    · rw [setE_vtables, setV_vtables_self]
      exact Or.inr rfl
    · intro tn htn1 htn2
      rw [setE_vtables, setV_vtables_other _ _ _ tn htn2]
      exact hpo tn htn1
    · rw [setE_etables_self, hpe]
      exact Or.inr rfl
    · intro tn htn
      rw [setE_etables_other _ _ _ tn htn, setV_etables, hpe]

/-- C4: the bootstrap is deterministic and idempotent.  A second
`ensure_project` call for the same names leaves the store exactly unchanged
(no second program or project row); no existing row of any table is ever
overwritten (all inserts are `ON CONFLICT DO NOTHING`); a newly created
program row gets `node_id = uuid5(PROGRAM_SEED, program)` with the program
props, and a newly created project row gets
`node_id = uuid5(PROJECT_SEED, project)` with the project props, with the
program-membership edge present alongside the new project. -/
theorem ensure_project_bootstrap (db : DB) (p j : String) (ts ts' : Nat) :
    (ensureProject (ensureProject db p j ts).db p j ts').db = (ensureProject db p j ts).db ∧
    (∀ tn k r, lookupA (db.vtables tn) k = some r →
      lookupA ((ensureProject db p j ts).db.vtables tn) k = some r) ∧
    (∀ tn k c, lookupA (db.etables tn) k = some c →
      lookupA ((ensureProject db p j ts).db.etables tn) k = some c) ∧
    (progLookup db p = none →
      uuid5 PROGRAM_SEED p ∉ (db.vtables "node_program").map Prod.fst →
      lookupA ((ensureProject db p j ts).db.vtables "node_program")
        (uuid5 PROGRAM_SEED p) = some ⟨programProps p, ts⟩) ∧
    (projQuery (programPhase db p ts).1 p j = none →
      uuid5 PROJECT_SEED j ∉
        ((programPhase db p ts).1.vtables "node_project").map Prod.fst →
      lookupA ((ensureProject db p j ts).db.vtables "node_project")
          (uuid5 PROJECT_SEED j) = some ⟨projectProps j, ts⟩ ∧
        (uuid5 PROJECT_SEED j, (programPhase db p ts).2) ∈
          ((ensureProject db p j ts).db.etables
            "edge_projectmemberofprogram").map Prod.fst) := by
  obtain ⟨hpe, hpo, hpn⟩ := programPhase_tables db p ts
  obtain ⟨he1, he2, he3, he4, he5⟩ := ensureProject_db_tables db p j ts
  refine ⟨by rw [ensureProject_second_call db p j ts ts'], ?_, ?_, ?_, ?_⟩
  · intro tn k r hr
    by_cases h1 : tn = "node_program"
    · subst h1
      rw [he1]
      rcases hpn with hpn | hpn
      · rwa [hpn]
      · rw [hpn]
        exact lookupA_insertIfAbsentA_of_some _ _ _ _ _ hr
    · by_cases h2 : tn = "node_project"
      · subst h2
        have hpj : (programPhase db p ts).1.vtables "node_project" =
            db.vtables "node_project" := hpo _ (by decide)
        rcases he2 with he2 | he2
        · rw [he2, hpj]
          exact hr
        · rw [he2, hpj]
          exact lookupA_insertIfAbsentA_of_some _ _ _ _ _ hr
      · rwa [he3 tn h1 h2]
  · intro tn k c hc
    by_cases h1 : tn = "edge_projectmemberofprogram"
    · subst h1
      rcases he4 with he4 | he4
      · rwa [he4]
      · rw [he4]
        exact lookupA_insertIfAbsentA_of_some _ _ _ _ _ hc
    · rwa [he5 tn h1]
  · intro hnone hnotmem
    rw [he1, programPhase_of_none db p ts hnone, setV_vtables_self]
    exact lookupA_insertIfAbsentA_self_of_not_mem _ _ _ hnotmem
  · intro hq hnotmem
    rw [ensureProject_of_none db p j ts hq]
    constructor
    · rw [setE_vtables, setV_vtables_self]
      exact lookupA_insertIfAbsentA_self_of_not_mem _ _ _ hnotmem
    · rw [setE_etables_self]
      exact mem_keys_insertIfAbsentA _ _ _

/-- Witness for C4 from the empty store: the program row is created with the
`uuid5(PROGRAM_SEED, progA)` id, and a second call leaves the store exactly
as the first left it. -/
theorem ensure_project_bootstrap_witness :
    lookupA ((ensureProject emptyDB "progA" "projA" 0).db.vtables "node_program")
        (uuid5 PROGRAM_SEED "progA") = some ⟨programProps "progA", 0⟩ ∧
    (ensureProject (ensureProject emptyDB "progA" "projA" 0).db "progA" "projA" 1).db =
      (ensureProject emptyDB "progA" "projA" 0).db :=
  ⟨(ensure_project_bootstrap emptyDB "progA" "projA" 0 1).2.2.2.1 rfl
      (List.not_mem_nil _),
    (ensure_project_bootstrap emptyDB "progA" "projA" 0 1).1⟩

/-- Counterexample for C5 as stated: `ensure_project` resolves the project
node id internally, but its body has no `return` statement, so the call
returns `None` — not the resolved project node id. -/
theorem ensure_project_return_counterexample :
    (ensureProject emptyDB "progA" "projA" 0).ret = none ∧
    (ensureProject emptyDB "progA" "projA" 0).resolvedProject =
      uuid5 PROJECT_SEED "projA" ∧
    (ensureProject emptyDB "progA" "projA" 0).ret ≠
      some ((ensureProject emptyDB "progA" "projA" 0).resolvedProject) := by
  refine ⟨by decide, by decide, by decide⟩

/-- C5 amended: `ensure_project` always returns `None` (its annotated `bool`
return type notwithstanding); internally it resolves a project node id, and
two successive calls with the same arguments resolve the same project node
id (and the same program node id). -/
theorem ensure_project_resolves_stably (db : DB) (p j : String) (ts ts' : Nat) :
    (ensureProject db p j ts).ret = none ∧
    (ensureProject (ensureProject db p j ts).db p j ts').resolvedProject =
      (ensureProject db p j ts).resolvedProject ∧
    (ensureProject (ensureProject db p j ts).db p j ts').resolvedProgram =
      (ensureProject db p j ts).resolvedProgram := by
  refine ⟨?_, ?_, ?_⟩
  · cases hq : projQuery (programPhase db p ts).1 p j with
    | some pid => rw [ensureProject_of_some db p j ts pid hq]
    | none => rw [ensureProject_of_none db p j ts hq]
  · rw [ensureProject_second_call]
  · rw [ensureProject_second_call]

/-- Counterexample for C8 as stated: with valid path/config/dictionary
preconditions but no ndjson files, `meta_upload` raises the `No files found`
assertion — yet only after `ensure_project` has already performed database
work: starting from the empty store, the `node_program` table has gained a
row when the assertion fires. -/
theorem meta_upload_precondition_counterexample :
    (metaUpload noFilesEnv "p" "j" 0 initState).2 =
      some ("No files found at src/**/*.ndjson") ∧
    ((metaUpload noFilesEnv "p" "j" 0 initState).1.db.vtables "node_program").length = 1 ∧
    (initState.db.vtables "node_program").length = 0 := by
  refine ⟨by decide, by decide, rfl⟩

/-- C8 amended: the source-directory, config-file and dictionary-path
preconditions each abort `meta_upload` immediately, before any database work
and with the store untouched; the no-matching-files precondition also aborts
with an assertion-style failure and loads no vertices and no edges (every
table other than the bootstrap's `node_program`/`node_project`/membership
tables is untouched), but it fires only after `ensure_project` has already
performed its committed database inserts. -/
theorem meta_upload_preconditions (env : Env) (p j : String) (ts : Nat) (st : LoadState) :
    (env.sourceIsDir = false →
      metaUpload env p j ts st = (st, some (env.sourcePath ++ " should be a directory"))) ∧
    (env.sourceIsDir = true → env.configIsFile = false →
      metaUpload env p j ts st = (st, some (env.configPath ++ " should be a file"))) ∧
    (env.sourceIsDir = true → env.configIsFile = true → env.dictionaryPath = "" →
      metaUpload env p j ts st = (st, some "dictionary_path cannot be empty")) ∧
    (env.sourceIsDir = true → env.configIsFile = true → env.dictionaryPath ≠ "" →
      env.files = [] →
      ((metaUpload env p j ts st).2.isSome = true ∧
        (∀ tn, tn ≠ "node_program" → tn ≠ "node_project" →
          (metaUpload env p j ts st).1.db.vtables tn = st.db.vtables tn) ∧
        (∀ tn, tn ≠ "edge_projectmemberofprogram" →
          (metaUpload env p j ts st).1.db.etables tn = st.db.etables tn))) := by
  refine ⟨?_, ?_, ?_, ?_⟩
  · intro h
    rw [metaUpload]
    rw [if_pos (by rw [h]; rfl)]
  · intro h1 h2
    rw [metaUpload]
    rw [if_neg (by rw [h1]; simp), if_pos (by rw [h2]; rfl)]
  · intro h1 h2 h3
    rw [metaUpload]
    rw [if_neg (by rw [h1]; simp), if_neg (by rw [h2]; simp), if_pos h3]
  · intro h1 h2 h3 h4
    obtain ⟨t1, t2, t3, t4, t5⟩ := ensureProject_db_tables st.db p j ts
    have hfst : (metaUpload env p j ts st).1 =
        { st with db := (ensureProject st.db p j ts).db } ∧
        (metaUpload env p j ts st).2.isSome = true := by
      simp only [metaUpload]
      rw [if_neg (by rw [h1]; simp), if_neg (by rw [h2]; simp), if_neg h3]
      cases hpf : ((ensureProject st.db p j ts).db.vtables "node_program").find?
          (fun kv => propsNameIs kv.2.props p) with
      | none => exact ⟨rfl, rfl⟩
      | some kv =>
        cases hjf : ((ensureProject st.db p j ts).db.vtables "node_project").find?
            (fun kv => propsCodeIs kv.2.props j) with
        | none => exact ⟨rfl, rfl⟩
        | some kv2 =>
          dsimp only
          rw [if_pos (by rw [h4]; rfl)]
          exact ⟨rfl, rfl⟩
    refine ⟨hfst.2, ?_, ?_⟩
    · intro tn ha hb
      rw [hfst.1]
      exact t3 tn ha hb
    · intro tn ha
      rw [hfst.1]
      exact t5 tn ha

/-- Witness for C8's amended theorem at the no-files fixture: the load
aborts with an assertion message and the graph tables are untouched. -/
theorem meta_upload_preconditions_witness :
    (metaUpload noFilesEnv "p" "j" 0 initState).2.isSome = true ∧
    (metaUpload noFilesEnv "p" "j" 0 initState).1.db.vtables "node_patient" =
      initState.db.vtables "node_patient" :=
  ⟨((meta_upload_preconditions noFilesEnv "p" "j" 0 initState).2.2.2 rfl rfl
      (by decide) rfl).1,
    ((meta_upload_preconditions noFilesEnv "p" "j" 0 initState).2.2.2 rfl rfl
      (by decide) rfl).2.1 "node_patient" (by decide) (by decide)⟩

theorem allTame_append (a b : List Char) :
    allTame (a ++ b) = (allTame a && allTame b) := by
  simp [allTame, List.all_append]

theorem allTame_cons (c : Char) (l : List Char) :
    allTame (c :: l) = (tameChar c && allTame l) := by
  simp [allTame, List.all_cons]

theorem not_special_of_allTame (l : List Char) (h : allTame l = true) :
    ∀ c ∈ l, c ≠ '\n' ∧ c ≠ '\t' ∧ c ≠ '\r' := by
  intro c hc
  have h1 := List.all_eq_true.mp h c hc
  simp only [tameChar, Bool.not_eq_eq_eq_not, Bool.not_true, Bool.or_eq_false_iff,
    decide_eq_false_iff_not] at h1
  exact ⟨h1.1.1, h1.1.2, h1.2⟩

theorem tameChar_hexDigit (n : Nat) : tameChar (hexDigit n) = true := by
  rw [hexDigit]
  have h : n % 16 < 16 := Nat.mod_lt _ (by omega)
  revert h
  generalize n % 16 = m
  intro h
  interval_cases m <;> decide

theorem allTame_escUnicode (n : Nat) : allTame (escUnicode n) = true := by
  have hb : tameChar '\\' = true := by decide
  have hu : tameChar 'u' = true := by decide
  rw [escUnicode]
  split
  · simp [allTame, hex4, List.all_cons, tameChar_hexDigit, hb, hu]
  · simp [allTame, hex4, List.all_cons, List.all_append, tameChar_hexDigit, hb, hu]

theorem allTame_escChar (c : Char) : allTame (escChar c) = true := by
  rw [escChar]
  split_ifs with h1 h2 h3 h4 h5 h6 h7 h8
  · decide
  · decide
  · decide
  · decide
  · decide
  · decide
  · decide
  · exact allTame_escUnicode c.toNat
  · simp [allTame, List.all_cons, tameChar, h3, h4, h5]

theorem tameChar_digitChar (n : Nat) : tameChar (digitChar n) = true := by
  rw [digitChar]
  have h : n % 10 < 10 := Nat.mod_lt _ (by omega)
  revert h
  generalize n % 10 = m
  intro h
  interval_cases m <;> decide

theorem allTame_natDigitsAux : ∀ (fuel n : Nat) (acc : List Char),
    allTame acc = true → allTame (natDigitsAux fuel n acc) = true
  | 0, _, _, h => h
  | _ + 1, 0, _, h => h
  | fuel + 1, n + 1, acc, h => by
    rw [natDigitsAux]
    apply allTame_natDigitsAux
    rw [allTame_cons, tameChar_digitChar, h]
    rfl

theorem allTame_intToChars (i : Int) : allTame (intToChars i) = true := by
  cases i with
  | ofNat n =>
    cases n with
    | zero => decide
    | succ m => exact allTame_natDigitsAux (m + 1) (m + 1) [] rfl
  | negSucc n =>
    rw [intToChars, allTame_cons, allTame_natDigitsAux (n + 2) (n + 2) [] rfl]
    decide

theorem allTame_flatMap_escChar (l : List Char) :
    allTame (l.flatMap escChar) = true := by
  rw [allTame, List.all_eq_true]
  intro c hc
  rcases List.mem_flatMap.mp hc with ⟨x, _, hcx⟩
  exact List.all_eq_true.mp (allTame_escChar x) c hcx

theorem allTame_strLit (s : String) : allTame (strLit s) = true := by
  rw [strLit, allTame_cons, allTame_append, allTame_flatMap_escChar]
  decide

mutual

theorem allTame_jsonDumps : ∀ v : Json, allTame (jsonDumps v) = true
  | Json.null => by decide
  | Json.bool true => by decide
  | Json.bool false => by decide
  | Json.num i => allTame_intToChars i
  | Json.str s => allTame_strLit s
  | Json.arr xs => by
    rw [jsonDumps, allTame_cons, allTame_append, allTame_jsonDumpsList xs]
    decide
  | Json.obj kvs => by
    rw [jsonDumps, allTame_cons, allTame_append, allTame_jsonDumpsKvs kvs]
    decide

theorem allTame_jsonDumpsList : ∀ xs : List Json, allTame (jsonDumpsList xs) = true
  | [] => rfl
  | [x] => by
    rw [jsonDumpsList]
    exact allTame_jsonDumps x
  | x :: y :: xs => by
    rw [jsonDumpsList, allTame_append, allTame_jsonDumps x, allTame_cons, allTame_cons,
      allTame_jsonDumpsList (y :: xs)]
    decide

theorem allTame_jsonDumpsKvs : ∀ kvs : List (String × Json),
    allTame (jsonDumpsKvs kvs) = true
  | [] => rfl
  | [kv] => by
    rw [jsonDumpsKvs, allTame_append, allTame_strLit, allTame_cons, allTame_cons,
      allTame_jsonDumps kv.2]
    decide
  | kv :: kv2 :: kvs => by
    rw [jsonDumpsKvs, allTame_append, allTame_append, allTame_strLit, allTame_cons,
      allTame_cons, allTame_jsonDumps kv.2, allTame_cons, allTame_cons,
      allTame_jsonDumpsKvs (kv2 :: kvs)]
    decide

end

theorem escapeNewlines_eq_self (l : List Char) (h : ∀ c ∈ l, c ≠ '\n') :
    escapeNewlines l = l := by
  induction l with
  | nil => rfl
  | cons c t ih =>
    have ht : escapeNewlines t = t := ih (fun x hx => h x (List.mem_cons_of_mem _ hx))
    rw [escapeNewlines, List.flatMap_cons, if_neg (h c (List.mem_cons_self c t))]
    rw [escapeNewlines] at ht
    rw [ht]
    rfl

theorem doubleBackslashes_cons (c : Char) (t : List Char) :
    doubleBackslashes (c :: t) =
      (if c = '\\' then ['\\', '\\'] else [c]) ++ doubleBackslashes t := by
  rw [doubleBackslashes, doubleBackslashes, List.flatMap_cons]

theorem doubleBackslashes_append (a b : List Char) :
    doubleBackslashes (a ++ b) = doubleBackslashes a ++ doubleBackslashes b := by
  simp [doubleBackslashes, List.flatMap_append]

theorem doubleBackslashes_eq_nil (l : List Char) (h : doubleBackslashes l = []) :
    l = [] := by
  cases l with
  | nil => rfl
  | cons c t =>
    rw [doubleBackslashes_cons] at h
    by_cases hc : c = '\\' <;> simp [hc] at h

theorem copyUnescape_doubleBackslashes (l : List Char) :
    copyUnescape (doubleBackslashes l) = l := by
  induction l with
  | nil => rfl
  | cons c t ih =>
    rw [doubleBackslashes_cons]
    by_cases hc : c = '\\'
    · rw [if_pos hc, hc]
      rw [show (['\\', '\\'] ++ doubleBackslashes t : List Char) =
        '\\' :: '\\' :: doubleBackslashes t from rfl]
      rw [copyUnescape, if_pos rfl, ih]
      rfl
    · rw [if_neg hc]
      cases hdt : doubleBackslashes t with
      | nil =>
        have ht : t = [] := doubleBackslashes_eq_nil t hdt
        subst ht
        rfl
      | cons d ds =>
        rw [show ([c] ++ (d :: ds) : List Char) = c :: d :: ds from rfl]
        rw [copyUnescape, if_neg hc, ← hdt, ih]

theorem no_tab_doubleBackslashes (l : List Char) (h : ∀ c ∈ l, c ≠ '\t') :
    ∀ c ∈ doubleBackslashes l, c ≠ '\t' := by
  intro c hc
  rcases List.mem_flatMap.mp hc with ⟨x, hx, hcx⟩
  by_cases hb : x = '\\'
  · rw [if_pos hb] at hcx
    simp only [List.mem_cons, List.not_mem_nil, or_false] at hcx
    rcases hcx with h1 | h1 <;> (subst h1; decide)
  · rw [if_neg hb] at hcx
    simp only [List.mem_cons, List.not_mem_nil, or_false] at hcx
    rw [hcx]
    exact h x hx

theorem splitOnChar_append_sep (sep : Char) (a b : List Char)
    (h : ∀ c ∈ a, c ≠ sep) :
    splitOnChar sep (a ++ sep :: b) = a :: splitOnChar sep b := by
  induction a with
  | nil =>
    rw [List.nil_append, splitOnChar, if_pos rfl]
  | cons c a ih =>
    rw [List.cons_append, splitOnChar, if_neg (h c (List.mem_cons_self c a)),
      ih (fun x hx => h x (List.mem_cons_of_mem _ hx))]

theorem splitOnChar_of_no_sep (sep : Char) (a : List Char) (h : ∀ c ∈ a, c ≠ sep) :
    splitOnChar sep a = [a] := by
  induction a with
  | nil => rfl
  | cons c a ih =>
    rw [splitOnChar, if_neg (h c (List.mem_cons_self c a)),
      ih (fun x hx => h x (List.mem_cons_of_mem _ hx))]

/-- C7: the vertex loader's escaping of the staged line (newline escaping
followed by backslash doubling) makes the tab-delimited staging format
round-trip exactly: splitting the staged row on raw tabs and COPY-unescaping
each field returns the record id, the exact `json.dumps` text of the
record's object with `project_id` injected — hence a props value equal to
that object, for every JSON object, including objects whose string values
contain newlines, tabs or backslashes (which `json.dumps` escapes inside
the JSON text) — the two constant `{}` columns, and the timestamp.  The
hypotheses only ask that the id and the rendered timestamp carry no raw
framing control characters. -/
theorem staged_row_roundtrips (id : String) (obj : Props) (pid : String)
    (ts : List Char) (hid : allTame id.data = true) (hts : allTame ts = true) :
    decodeRow (stagedVertexLine id obj pid ts) =
      [id.data, jsonDumps (Json.obj (setKey obj "project_id" (Json.str pid))),
        ['{', '}'], ['{', '}'], ts] := by
  rw [decodeRow, stagedVertexLine]
  set J := jsonDumps (Json.obj (setKey obj "project_id" (Json.str pid))) with hJdef
  have hJ : allTame J = true := allTame_jsonDumps _
  have hnoNL : ∀ c ∈ rawVertexLine id J ts, c ≠ '\n' := by
    intro c hc
    rw [rawVertexLine] at hc
    rcases List.mem_append.mp hc with h1 | h1
    · exact (not_special_of_allTame _ hid c h1).1
    · rcases List.mem_cons.mp h1 with h2 | h2
      · rw [h2]
        decide
      · rcases List.mem_append.mp h2 with h3 | h3
        · exact (not_special_of_allTame _ hJ c h3).1
        · simp only [List.mem_cons] at h3
          rcases h3 with h4 | h4 | h4 | h4 | h4 | h4 | h4 | h4
          all_goals
            first
            | (rw [h4]; decide)
            | exact (not_special_of_allTame _ hts c h4).1
  have hdbs : doubleBackslashes (rawVertexLine id J ts) =
      doubleBackslashes id.data ++ '\t' :: (doubleBackslashes J ++
        '\t' :: '{' :: '}' :: '\t' :: '{' :: '}' :: '\t' :: doubleBackslashes ts) := by
    simp only [rawVertexLine, doubleBackslashes_append, doubleBackslashes_cons]
    simp
  have hidT : ∀ c ∈ doubleBackslashes id.data, c ≠ '\t' :=
    no_tab_doubleBackslashes _ (fun c hc => (not_special_of_allTame _ hid c hc).2.1)
  have hJT : ∀ c ∈ doubleBackslashes J, c ≠ '\t' :=
    no_tab_doubleBackslashes _ (fun c hc => (not_special_of_allTame _ hJ c hc).2.1)
  have htsT : ∀ c ∈ doubleBackslashes ts, c ≠ '\t' :=
    no_tab_doubleBackslashes _ (fun c hc => (not_special_of_allTame _ hts c hc).2.1)
  rw [escapeNewlines_eq_self _ hnoNL, hdbs]
  rw [show splitTab = splitOnChar '\t' from rfl]
  rw [splitOnChar_append_sep '\t' _ _ hidT]
  rw [splitOnChar_append_sep '\t' _ _ hJT]
  rw [show ('{' :: '}' :: '\t' :: '{' :: '}' :: '\t' :: doubleBackslashes ts : List Char) =
    ['{', '}'] ++ '\t' :: ('{' :: '}' :: '\t' :: doubleBackslashes ts) from rfl]
  rw [splitOnChar_append_sep '\t' _ _ (by decide)]
  rw [show ('{' :: '}' :: '\t' :: doubleBackslashes ts : List Char) =
    ['{', '}'] ++ '\t' :: doubleBackslashes ts from rfl]
  rw [splitOnChar_append_sep '\t' _ _ (by decide)]
  rw [splitOnChar_of_no_sep '\t' _ htsT]
  simp only [List.map_cons, List.map_nil]
  rw [copyUnescape_doubleBackslashes, copyUnescape_doubleBackslashes,
    copyUnescape_doubleBackslashes]
  rw [show copyUnescape ['{', '}'] = ['{', '}'] from by decide]

/-- Witness for C7 at an object whose string value contains a newline, a tab
and a backslash. -/
theorem staged_row_roundtrips_witness :
    decodeRow (stagedVertexLine "p1" [("note", Json.str "a\nb\tc\\d")] "prog-proj"
        "2024-01-01".data) =
      ["p1".data,
        jsonDumps (Json.obj (setKey [("note", Json.str "a\nb\tc\\d")] "project_id"
          (Json.str "prog-proj"))),
        ['{', '}'], ['{', '}'], "2024-01-01".data] :=
  staged_row_roundtrips "p1" [("note", Json.str "a\nb\tc\\d")] "prog-proj"
    "2024-01-01".data (by decide) (by decide)

end MetaGraphLoad
